import Mathlib

/-!
Shallow embedding of the SSOsoft ROSA/Zyla calibration pipeline
(`ssosoft/rosaZylaCal.py` and `ssosoft/kisipWrapper.py`) together with
proofs of the claims about it.

Machine integers are modelled as `Nat`/`Int` with an explicit `% 2 ^ 16`
where a `np.uint16` cast matters; numpy image arrays are modelled as
lists of rationals (every operation the claims touch is exact on the
inputs considered); fallible code returns `Option`/`Except`.
-/

/-! ### Geometry detector (`rosa_zyla_detect_zyla_dims`, rosaZylaCal.py:367-436) -/

/-- Embedding of `np.equal(imageData, 0).view(np.int8)`: 1 where the raw
sample is zero, else 0. -/
def zeroMask (img : List ℕ) : List ℕ :=
  img.map (fun x => if x = 0 then 1 else 0)

/-- Embedding of `np.concatenate(([0], np.equal(imageData, 0).view(np.int8), [0]))`:
the zero mask padded with a 0 sentinel on both ends. -/
def iszero (img : List ℕ) : List ℕ :=
  0 :: zeroMask img ++ [0]

/-- Embedding of `np.abs(np.diff(l))` on a list of naturals. -/
def absdiff (l : List ℕ) : List ℕ :=
  List.zipWith (fun a b => ((b : ℤ) - (a : ℤ)).natAbs) l l.tail

/-- Embedding of `np.where(arr == 1)[0]` with running start index `i`:
the indices at which the list holds the value 1. -/
def whereEqOne : List ℕ → ℕ → List ℕ
  | [], _ => []
  | v :: vs, i => if v = 1 then i :: whereEqOne vs (i + 1) else whereEqOne vs (i + 1)

/-- Embedding of the inner helper `rosa_zyla_detect_overscan` of
`rosa_zyla_detect_zyla_dims` (rosaZylaCal.py:382-400): the indices where
`absdiff` of the padded zero mask equals 1, i.e. the start/end boundaries
of the contiguous zero runs of the raw buffer. -/
def rosa_zyla_detect_overscan (imageData : List ℕ) : List ℕ :=
  whereEqOne (absdiff (iszero imageData)) 0

/-- Embedding of `np.where(np.logical_and(DeltaX != dx1, DeltaX != dx2))[0][0]`
(rosaZylaCal.py:424-429) with running index `i`: the position of the
first delta differing from both `dx1` and `dx2`; `none` models the
`IndexError` when no position matches. -/
def firstMismatch (dx1 dx2 : ℤ) : List ℕ → ℕ → Option ℕ
  | [], _ => none
  | d :: ds, i =>
      if (d : ℤ) ≠ dx1 ∧ (d : ℤ) ≠ dx2 then some i else firstMismatch dx1 dx2 ds (i + 1)

/-- Embedding of `rosa_zyla_detect_zyla_dims` (rosaZylaCal.py:367-436).
Returns `some ((dataRows, dataCols), (imageRows, imageCols))`; `none`
models the `IndexError` raised when fewer than three zero-run boundaries
exist or when every boundary-to-boundary delta matches one of the first
two.  In the source `imageData.size/ovrScn[1]` and `endRow = idx/2 + 1`
are Python float true divisions whose results are cast with `np.uint16`,
which truncates the nonnegative value toward zero and wraps: on naturals
that is `Nat` division followed by `% 2 ^ 16`.  (`ovrScn[1]` is never 0
because the boundary indices are strictly increasing naturals.) -/
def rosa_zyla_detect_zyla_dims (imageData : List ℕ) : Option ((ℕ × ℕ) × (ℕ × ℕ)) :=
  match rosa_zyla_detect_overscan imageData with
  | o0 :: o1 :: o2 :: rest =>
      let datDim : ℕ × ℕ := ((imageData.length / o1) % 2 ^ 16, o1)
      let dx1 : ℤ := (o1 : ℤ) - (o0 : ℤ)
      let dx2 : ℤ := (o2 : ℤ) - (o1 : ℤ)
      let deltaX : List ℕ := absdiff (o0 :: o1 :: o2 :: rest)
      match firstMismatch dx1 dx2 deltaX 0 with
      | none => none
      | some idx => some (datDim, ((idx / 2 + 1) % 2 ^ 16, o0))
  | _ => none

/-- Synthetic raw Zyla buffer with the deterministic overscan pattern of
spec section 8: `r` data rows, each holding `c` samples of the nonzero
value `v` followed by `C - c` zero overscan samples, then `R - r` all-zero
rows, flattened row-major into `R * C` samples. -/
def synthZylaBuffer (R C r c v : ℕ) : List ℕ :=
  (List.replicate r (List.replicate c v ++ List.replicate (C - c) 0) ++
    List.replicate (R - r) (List.replicate C 0)).flatten

/-- Proof-side reformulation of the boundary scan: `prev` is the previous
mask value (0 for the leading sentinel) and `i` the index of the head;
the trailing 0 sentinel appears as the base case. -/
def bnds : ℕ → List ℕ → ℕ → List ℕ
  | prev, [], i => if prev = 1 then [i] else []
  | prev, b :: bs, i => if b ≠ prev then i :: bnds b bs (i + 1) else bnds b bs (i + 1)

/-- Zero mask of one data row of the synthetic buffer: `c` zeros (the
nonzero data samples) then `C - c` ones (the zero overscan samples). -/
def blockA (c C : ℕ) : List ℕ :=
  List.replicate c 0 ++ List.replicate (C - c) 1

/-- Zero mask of `k` data rows of the synthetic buffer. -/
def maskRows (c C : ℕ) : ℕ → List ℕ
  | 0 => []
  | k + 1 => blockA c C ++ maskRows c C k

/-- Closed form of the boundary pairs contributed by `k` data rows whose
first row starts at sample index `i`. -/
def pairsB (c C : ℕ) : ℕ → ℕ → List ℕ
  | 0, _ => []
  | k + 1, i => i :: (i + c) :: pairsB c C k (i + C)

/-- Closed form of the alternating boundary-to-boundary deltas
`C - c, c, C - c, c, ...` (`k` repetitions of the pair). -/
def rep2 (c C : ℕ) : ℕ → List ℕ
  | 0 => []
  | k + 1 => (C - c) :: c :: rep2 c C k

/-! ### Binary image reader (`rosa_zyla_read_binary_image`, rosaZylaCal.py:607-650) -/

/-- Row-major reshape of a flat buffer into `R` rows of `C` samples each:
the chunking semantics of `imageData.reshape((R, C))` on a C-contiguous
numpy array. -/
def reshapeRows : ℕ → ℕ → List ℕ → List (List ℕ)
  | 0, _, _ => []
  | R + 1, C, buf => buf.take C :: reshapeRows R C (buf.drop C)

/-- Embedding of `rosa_zyla_read_binary_image` (rosaZylaCal.py:607-650):
reshape the raw buffer to `dataShape = (R, C)` and slice with
`s[i] ~ 0:imageShape[i]`, i.e. keep the first `r` rows and the first `c`
columns.  `none` models the `ValueError` numpy's reshape raises when the
buffer size is not `R * C`; the final `np.float32` cast is exact on
`uint16` samples and values are kept as naturals. -/
def rosa_zyla_read_binary_image (buf : List ℕ) (R C r c : ℕ) : Option (List (List ℕ)) :=
  if buf.length = R * C then
    some (((reshapeRows R C buf).take r).map (fun row => row.take c))
  else none

/-! ### Gain computation (`rosa_zyla_compute_gain`, rosaZylaCal.py:208-221) -/

/-- Insertion of a rational into a sorted list, for `sortRats`. -/
def insertSorted (x : ℚ) : List ℚ → List ℚ
  | [] => [x]
  | y :: ys => if x ≤ y then x :: y :: ys else y :: insertSorted x ys

/-- Ascending insertion sort on rationals: the sort underlying the
`np.median` embedding (which sort algorithm numpy uses is irrelevant,
any ascending sort of the same multiset gives the same list). -/
def sortRats : List ℚ → List ℚ
  | [] => []
  | x :: xs => insertSorted x (sortRats xs)

/-- Embedding of `np.median` on a list of rationals: sort ascending, take
the middle element (odd length) or the mean of the two middle elements
(even length).  The empty list, for which numpy yields nan with a
warning, is mapped to the junk value 0; no claim evaluates it there. -/
def npMedian (l : List ℚ) : ℚ :=
  let s := sortRats l
  if l.length % 2 = 1 then s.getD (l.length / 2) 0
  else (s.getD (l.length / 2 - 1) 0 + s.getD (l.length / 2) 0) / 2

/-- Value computed by `rosa_zyla_compute_gain` (rosaZylaCal.py:208-221):
`darkSubtracted = avgFlat - avgDark` elementwise, then
`gain = np.median(darkSubtracted)/darkSubtracted` elementwise, on the
flattened arrays in exact rational arithmetic (the claim only constrains
entries with a nonzero denominator; `ℚ` division by zero is junk here
and the zero-denominator behaviour is settled separately through
`rosa_zyla_compute_gain_run`). -/
def rosa_zyla_compute_gain (avgFlat avgDark : List ℚ) : List ℚ :=
  let darkSubtracted := List.zipWith (fun a b => a - b) avgFlat avgDark
  darkSubtracted.map (fun x => npMedian darkSubtracted / x)

/-- Model of a numpy float value as far as the gain computation needs:
a finite rational or one of the non-finite values produced by dividing
by zero. -/
inductive NpFloat
  | finite (q : ℚ)
  | posInf
  | negInf
  | nan
deriving DecidableEq

/-- Numpy `true_divide` on finite operands: per IEEE-754 semantics (which
numpy follows) a zero divisor raises no exception; it produces `inf`,
`-inf` or `nan`, with at most a `RuntimeWarning` under the default
`np.errstate`. -/
def npDiv (a b : ℚ) : NpFloat :=
  if b = 0 then
    if a = 0 then NpFloat.nan
    else if 0 < a then NpFloat.posInf
    else NpFloat.negInf
  else NpFloat.finite (a / b)

/-- Observable outcome of one run of `rosa_zyla_compute_gain`: the gain
array, whether an exception escaped the method, and whether the `except`
branch (the only place the method logs an error) executed. -/
structure GainRun where
  gain : List NpFloat
  exceptionRaised : Bool
  errorLogged : Bool
deriving DecidableEq

/-- Control-flow embedding of `rosa_zyla_compute_gain` (rosaZylaCal.py:208-221).
The body is `try: self.gain = np.median(d)/(d)` with
`except Exception as err: self.error(...)`.  `np.median` on a nonempty
float array raises nothing, and elementwise float division raises
nothing even at zero denominators (numpy emits a `RuntimeWarning` and
stores inf/nan), so the `except` branch is dead code: no exception is
raised and no error is logged.  (Were the branch ever entered it would
itself crash, since `rosaZylaCal` defines no `error` attribute.) -/
def rosa_zyla_compute_gain_run (avgFlat avgDark : List ℚ) : GainRun :=
  let d := List.zipWith (fun a b => a - b) avgFlat avgDark
  { gain := d.map (fun x => npDiv (npMedian d) x)
    exceptionRaised := false
    errorLogged := false }

/-! ### File ordering (`rosa_zyla_order_files`, rosaZylaCal.py:567-605) -/

/-- Embedding of `os.path.split(f)[1]`: the part of the path after the
last separator. -/
def fileTail (f : List Char) : List Char :=
  (f.reverse.takeWhile (fun ch => ch ≠ '/')).reverse

/-- Embedding of `re.compile('[0-9]+').match(tail)`: the maximal leading
digit run of the filename tail (`re.match` anchors at position 0, so a
name whose first character is not a digit yields no match). -/
def leadingDigits (t : List Char) : List Char :=
  t.takeWhile Char.isDigit

/-- Embedding of `int(s)` on a digit string. -/
def parseDigits (ds : List Char) : ℕ :=
  ds.foldl (fun n ch => n * 10 + (ch.toNat - Char.toNat '0')) 0

/-- The slot index `rosa_zyla_order_files` assigns to a Zyla filename:
reverse the matched leading digit string (`match.group()[::-1]`) and
parse it as an integer; `none` when the name has no leading digit. -/
def decodeIndex (f : List Char) : Option ℕ :=
  let ds := leadingDigits (fileTail f)
  if ds.isEmpty then none else some (parseDigits ds.reverse)

inductive OrderErr
  | indexError
  | gapError
deriving DecidableEq

/-- The placement loop of `rosa_zyla_order_file_list` (ZYLA branch,
rosaZylaCal.py:574-588): walk the file list, writing each file with a
leading digit token into its decoded slot of the accumulator (initially
all `[]`, Python's empty-string sentinel `''`); a file without a token
is only logged and skipped; a decoded index beyond the list length
models the `IndexError` Python raises on `orderList[int(digitNew)] = f`. -/
def placeFiles : List (List Char) → List (List Char) → Except OrderErr (List (List Char))
  | [], acc => Except.ok acc
  | f :: fs, acc =>
      match decodeIndex f with
      | none => placeFiles fs acc
      | some i =>
          if i < acc.length then placeFiles fs (acc.set i f)
          else Except.error OrderErr.indexError

/-- Embedding of `rosa_zyla_order_file_list` for the ZYLA instrument
(rosaZylaCal.py:573-598): place every file at its decoded index in a
list pre-sized to `len(fList)`, then run the gap check
`assert(all(orderList))`, which fails when any slot still holds the
empty-string sentinel. -/
def rosa_zyla_order_file_list (fList : List (List Char)) : Except OrderErr (List (List Char)) :=
  match placeFiles fList (List.replicate fList.length []) with
  | Except.error e => Except.error e
  | Except.ok l =>
      if l.all (fun s => !s.isEmpty) then Except.ok l else Except.error OrderErr.gapError

/-! ### Burst batcher (`rosa_zyla_save_bursts`, rosaZylaCal.py:710-829) -/

/-- Embedding of the inner `rosa_zyla_flatfield_correction`
(rosaZylaCal.py:714-716): `corrected = gain * (data - avgDark)`
elementwise. -/
def rosa_zyla_flatfield_correction (gain avgDark frame : List ℚ) : List ℚ :=
  List.zipWith (fun g d => g * d) gain (List.zipWith (fun x a => x - a) frame avgDark)

/-- One burst cube emitted by `rosa_zyla_save_bursts`: its zero-based
burst index, `burstThsnds = burst // 1000`, `burstHndrds = burst % 1000`,
and the flat-fielded frames written into the cube. -/
structure BurstRec where
  burstIndex : ℕ
  batchId : ℕ
  withinBatch : ℕ
  cube : List (List ℚ)
deriving DecidableEq

/-- The frame loop of `rosa_zyla_save_bursts` (rosaZylaCal.py:738-777):
the reusable cube buffer is modelled as the list of frames written so
far (the write index `i` is its length).  When it reaches `burstNumber`
a burst record is emitted, the batch id `burst // 1000` is appended to
the batch list when it differs from the most recently appended id (the
`batch` variable, initially -1), the buffer is reset and the burst index
incremented. -/
def goBursts (gain avgDark : List ℚ) (b : ℕ) :
    List (List ℚ) → List (List ℚ) → ℕ → ℤ → List BurstRec × List ℕ →
    List BurstRec × List ℕ
  | [], _, _, _, acc => acc
  | f :: fs, cube, burst, batch, (recs, bl) =>
      let cube' := cube ++ [rosa_zyla_flatfield_correction gain avgDark f]
      if cube'.length = b then
        let bt := burst / 1000
        let bl' := if (bt : ℤ) ≠ batch then bl ++ [bt] else bl
        goBursts gain avgDark b fs [] (burst + 1) (bt : ℤ)
          (recs ++ [⟨burst, bt, burst % 1000, cube'⟩], bl')
      else
        goBursts gain avgDark b fs cube' burst batch (recs, bl)

/-- Embedding of `rosa_zyla_save_bursts`, ZYLA branch
(rosaZylaCal.py:741-777): only the first
`lastFile = (len(dataList)//burstNumber)*burstNumber` data files are
walked, so the remainder frames are dropped and every emitted cube is
complete.  Returns the emitted burst records and the batch list. -/
def rosa_zyla_save_bursts (gain avgDark : List ℚ) (dataList : List (List ℚ))
    (burstNumber : ℕ) : List BurstRec × List ℕ :=
  let lastBurst := dataList.length / burstNumber
  let lastFile := lastBurst * burstNumber
  goBursts gain avgDark burstNumber (dataList.take lastFile) [] 0 (-1) ([], [])

/-- Embedding of `rosa_zyla_save_bursts`, ROSA branch
(rosaZylaCal.py:778-827): the flattened sequence of all FITS sub-frames
across all files is walked with the same cube/batch logic and no
truncation; a final partial cube is simply never emitted because the
loop ends before `i` reaches `burstNumber` again. -/
def rosa_zyla_save_bursts_rosa (gain avgDark : List ℚ) (dataList : List (List (List ℚ)))
    (burstNumber : ℕ) : List BurstRec × List ℕ :=
  goBursts gain avgDark burstNumber dataList.flatten [] 0 (-1) ([], [])

/-- Closed form of the batch ids appended while emitting bursts
`j, j+1, ..., j+m-1` when the most recently appended id is `b0`
(`-1` before any append). -/
def batchSeg : ℕ → ℕ → ℤ → List ℕ
  | _, 0, _ => []
  | j, m + 1, b0 =>
      (if ((j / 1000 : ℕ) : ℤ) ≠ b0 then [j / 1000] else []) ++
        batchSeg (j + 1) m ((j / 1000 : ℕ) : ℤ)

/-! ### KISIP wrapper (`kisipWrapper.py`) -/

/-- Embedding of `kisip_set_environment` (kisipWrapper.py:181-193) acting
on a process environment, modelled as a total map from variable names to
values (`os.pathsep` is ":" on the POSIX hosts this tool targets).
Line 188 replaces `PATH` by `kisipEnvBin + ":" + os.environ['PATH']`;
line 191 then replaces `LD_LIBRARY_PATH` by
`kisipEnvLib + ":" + os.environ['PATH']` - the second read is of `PATH`
(already updated), not of `LD_LIBRARY_PATH`, exactly as on line 192 of
the source. -/
def kisip_set_environment (kisipEnvBin kisipEnvLib : String)
    (env : String → String) : String → String :=
  let env1 := fun k => if k = "PATH" then kisipEnvBin ++ ":" ++ env "PATH" else env k
  let env2 := fun k =>
    if k = "LD_LIBRARY_PATH" then kisipEnvLib ++ ":" ++ env1 "PATH" else env1 k
  env2

/-- Outcome of one attempt to launch KISIP: either `subprocess.Popen`
(or anything else inside the `try`) raises - a spawn failure - or the
process runs to completion and exits with a code. -/
inductive SpawnOutcome
  | spawnFail
  | exited (code : ℤ)
deriving DecidableEq

/-- Embedding of `kisip_spawn_kisip` (kisipWrapper.py:261-309): a
spawn-level exception is logged and re-raised (`raise` in the `except`
branch, modelled as `Except.error`); the exit code of a successfully
spawned process - zero or nonzero - is only logged in the `else` branch
and the method returns normally. -/
def kisip_spawn_kisip : SpawnOutcome → Except Unit ℤ
  | SpawnOutcome.spawnFail => Except.error ()
  | SpawnOutcome.exited code => Except.ok code

/-- Exit code of a spawn outcome; junk 0 on a spawn failure (only ever
used under a no-spawn-failure hypothesis). -/
def exitCode : SpawnOutcome → ℤ
  | SpawnOutcome.spawnFail => 0
  | SpawnOutcome.exited code => code

/-- Embedding of `kisip_set_batch_start_end_inds` (kisipWrapper.py:195-259)
as a function of the number `nFile` of files matching the batch's cube
glob: the start index is always 0 (the source's stated risky
assumption), the end index is `nFile - 1` over `Int` (so -1 when nothing
matches), and the boolean records whether the zero-match `error` branch
was logged.  No branch raises. -/
def kisip_set_batch_start_end_inds (nFile : ℕ) : ℤ × ℤ × Bool :=
  (0, (nFile : ℤ) - 1, nFile == 0)

/-- The batch loop of `kisip_despeckle_all_batches` (kisipWrapper.py:166-179),
parameterised by the on-disk and process state: `fileCount b` is the
number of cube files matching batch `b`'s glob and `outcome b` the
result of spawning KISIP for it.  Each processed batch is recorded as
`(batch, startInd, endInd, exitCode)`; a spawn failure propagates
immediately out of the loop (`Except.error` carrying the batches already
processed). -/
def kisip_despeckle_batches (fileCount : ℕ → ℕ) (outcome : ℕ → SpawnOutcome) :
    List ℕ → List (ℕ × ℤ × ℤ × ℤ) → Except (List (ℕ × ℤ × ℤ × ℤ)) (List (ℕ × ℤ × ℤ × ℤ))
  | [], acc => Except.ok acc
  | batch :: rest, acc =>
      let inds := kisip_set_batch_start_end_inds (fileCount batch)
      match kisip_spawn_kisip (outcome batch) with
      | Except.error _ => Except.error acc
      | Except.ok code =>
          kisip_despeckle_batches fileCount outcome rest (acc ++ [(batch, inds.1, inds.2.1, code)])

/-- Embedding of `kisip_despeckle_all_batches` (kisipWrapper.py:166-179):
run the per-batch pipeline over `batchList` in order. -/
def kisip_despeckle_all_batches (batchList : List ℕ) (fileCount : ℕ → ℕ)
    (outcome : ℕ → SpawnOutcome) :
    Except (List (ℕ × ℤ × ℤ × ℤ)) (List (ℕ × ℤ × ℤ × ℤ)) :=
  kisip_despeckle_batches fileCount outcome batchList []

/-! ## Theorems -/

/-! ### Claim C6: environment variables set before spawning KISIP -/

/-- Claim C6 (evidence of the code bug): `kisip_set_environment` does
prepend the tool binary directory to `PATH`, but the new
`LD_LIBRARY_PATH` is the tool library directory followed by the
already-updated `PATH` value, not by `LD_LIBRARY_PATH`'s own previous
value.  On the concrete environment with `PATH = "p"`,
`LD_LIBRARY_PATH = "q"`, binary directory `"b"` and library directory
`"l"`, the result maps `PATH` to `"b:p"` as specified, but maps
`LD_LIBRARY_PATH` to `"l:b:p"` instead of the specified `"l:q"`;
variables other than these two are untouched. -/
theorem kisip_set_environment_ld_library_path_bug :
    (kisip_set_environment "b" "l"
      (fun k => if k = "PATH" then "p" else if k = "LD_LIBRARY_PATH" then "q" else "x"))
      "PATH" = "b:p"
    ∧ (kisip_set_environment "b" "l"
      (fun k => if k = "PATH" then "p" else if k = "LD_LIBRARY_PATH" then "q" else "x"))
      "LD_LIBRARY_PATH" = "l:b:p"
    ∧ "l:b:p" ≠ "l" ++ ":" ++ "q"
    ∧ (kisip_set_environment "b" "l"
      (fun k => if k = "PATH" then "p" else if k = "LD_LIBRARY_PATH" then "q" else "x"))
      "OTHER" = "x" := by
  refine ⟨by decide, by decide, by decide, by decide⟩

/-! ### Claim C5: zero division in the gain computation -/

/-- Claim C5 (evidence of the code bug): with `avgFlat = [2, 1]` and
`avgDark = [1, 1]` the difference array is `[1, 0]`, so the gain
computation divides by an exactly-zero element; numpy raises no
exception for that, so the `except` branch of `rosa_zyla_compute_gain`
never executes: no error is logged, nothing is raised, and the run
continues with a gain array silently holding the non-finite value `inf`
at the zero-denominator position (the claimed catch-and-log never
happens). -/
theorem rosa_zyla_compute_gain_zero_division_not_logged :
    (rosa_zyla_compute_gain_run [2, 1] [1, 1]).errorLogged = false
    ∧ (rosa_zyla_compute_gain_run [2, 1] [1, 1]).exceptionRaised = false
    ∧ (rosa_zyla_compute_gain_run [2, 1] [1, 1]).gain =
        [NpFloat.finite (1 / 2), NpFloat.posInf] := by
  refine ⟨rfl, rfl, ?_⟩
  norm_num [rosa_zyla_compute_gain_run, npMedian, sortRats, insertSorted, npDiv]

/-! ### Claims C7 and C8: the KISIP batch loop -/

/-- Helper: under spawn success for every listed batch, the batch loop
records every batch in order with start index 0, end index
`fileCount - 1` and its exit code. -/
theorem kisip_despeckle_batches_ok (fileCount : ℕ → ℕ) (outcome : ℕ → SpawnOutcome) :
    ∀ (bl : List ℕ) (acc : List (ℕ × ℤ × ℤ × ℤ)),
      (∀ b ∈ bl, outcome b ≠ SpawnOutcome.spawnFail) →
      kisip_despeckle_batches fileCount outcome bl acc =
        Except.ok (acc ++ bl.map (fun b =>
          (b, 0, (fileCount b : ℤ) - 1, exitCode (outcome b)))) := by
  intro bl
  induction bl with
  | nil => intro acc _; simp [kisip_despeckle_batches]
  | cons b rest ih =>
      intro acc h
      have hb := h b (List.mem_cons_self b rest)
      match hoc : outcome b with
      | SpawnOutcome.spawnFail => exact absurd hoc hb
      | SpawnOutcome.exited code =>
          simp only [kisip_despeckle_batches, hoc, kisip_spawn_kisip]
          rw [ih _ (fun x hx => h x (List.mem_cons_of_mem _ hx))]
          simp [kisip_set_batch_start_end_inds, exitCode, hoc]

/-- Helper: a spawn failure at batch `bad` stops the loop there, with
only the preceding batches processed. -/
theorem kisip_despeckle_batches_fail (fileCount : ℕ → ℕ) (outcome : ℕ → SpawnOutcome) :
    ∀ (pre : List ℕ) (bad : ℕ) (post : List ℕ) (acc : List (ℕ × ℤ × ℤ × ℤ)),
      (∀ b ∈ pre, outcome b ≠ SpawnOutcome.spawnFail) →
      outcome bad = SpawnOutcome.spawnFail →
      kisip_despeckle_batches fileCount outcome (pre ++ bad :: post) acc =
        Except.error (acc ++ pre.map (fun b =>
          (b, 0, (fileCount b : ℤ) - 1, exitCode (outcome b)))) := by
  intro pre
  induction pre with
  | nil =>
      intro bad post acc _ hbad
      simp [kisip_despeckle_batches, hbad, kisip_spawn_kisip]
  | cons b rest ih =>
      intro bad post acc h hbad
      have hb := h b (List.mem_cons_self b rest)
      match hoc : outcome b with
      | SpawnOutcome.spawnFail => exact absurd hoc hb
      | SpawnOutcome.exited code =>
          simp only [List.cons_append, kisip_despeckle_batches, hoc, kisip_spawn_kisip,
            List.append_eq]
          rw [ih bad post _ (fun x hx => h x (List.mem_cons_of_mem _ hx)) hbad]
          simp [kisip_set_batch_start_end_inds, exitCode, hoc]

/-- Claim C7: in `kisip_spawn_kisip` a spawn-level exception is re-raised
and is fatal - the batch loop of `kisip_despeckle_all_batches` aborts at
the failing batch and the batches after it are never processed - whereas
a nonzero exit code returned after a successful spawn is only logged:
the loop runs to completion over any batch list whose spawns all
succeed, whatever their exit codes. -/
theorem kisip_spawn_fatal_vs_exit_code_soft (fileCount : ℕ → ℕ)
    (outcome : ℕ → SpawnOutcome) (pre post : List ℕ) (bad : ℕ)
    (hpre : ∀ b ∈ pre, outcome b ≠ SpawnOutcome.spawnFail)
    (hbad : outcome bad = SpawnOutcome.spawnFail) :
    (kisip_spawn_kisip (outcome bad) = Except.error ()
      ∧ kisip_despeckle_all_batches (pre ++ bad :: post) fileCount outcome =
          Except.error (pre.map (fun b =>
            (b, 0, (fileCount b : ℤ) - 1, exitCode (outcome b)))))
    ∧ (∀ bl : List ℕ, (∀ b ∈ bl, outcome b ≠ SpawnOutcome.spawnFail) →
        kisip_despeckle_all_batches bl fileCount outcome =
          Except.ok (bl.map (fun b =>
            (b, 0, (fileCount b : ℤ) - 1, exitCode (outcome b))))) := by
  refine ⟨⟨by rw [hbad]; rfl, ?_⟩, ?_⟩
  · unfold kisip_despeckle_all_batches
    rw [kisip_despeckle_batches_fail fileCount outcome pre bad post [] hpre hbad]
    simp
  · intro bl h
    unfold kisip_despeckle_all_batches
    rw [kisip_despeckle_batches_ok fileCount outcome bl [] h]
    simp

/-- Witness for claim C7 at a concrete input: batch 1 spawn-fails, so the
run of `[0, 1, 2]` aborts after recording batch 0 (which exited with the
nonzero code 5 and was not fatal); the run of `[0, 2]`, where every
spawn succeeds with nonzero exit codes, processes both batches. -/
theorem kisip_spawn_fatal_vs_exit_code_soft_witness :
    kisip_despeckle_all_batches ([0] ++ 1 :: [2]) (fun _ => 3)
        (fun b => if b = 1 then SpawnOutcome.spawnFail else SpawnOutcome.exited 5) =
      Except.error ([0].map (fun b =>
        (b, 0, ((3 : ℕ) : ℤ) - 1, exitCode (if b = 1 then SpawnOutcome.spawnFail else SpawnOutcome.exited 5))))
    ∧ kisip_despeckle_all_batches [0, 2] (fun _ => 3)
        (fun b => if b = 1 then SpawnOutcome.spawnFail else SpawnOutcome.exited 5) =
      Except.ok ([0, 2].map (fun b =>
        (b, 0, ((3 : ℕ) : ℤ) - 1, exitCode (if b = 1 then SpawnOutcome.spawnFail else SpawnOutcome.exited 5)))) := by
  have h := kisip_spawn_fatal_vs_exit_code_soft (fun _ => 3)
    (fun b => if b = 1 then SpawnOutcome.spawnFail else SpawnOutcome.exited 5)
    [0] [2] 1 (by decide) (by decide)
  exact ⟨h.1.2, h.2 [0, 2] (by decide)⟩

/-- Claim C8: `kisip_set_batch_start_end_inds` always sets the start
index to 0 and the end index to the matching-file count minus one (so
the end index is -1 over the integers when zero files match); the
zero-match branch only logs - the error flag is set exactly when the
count is zero, nothing is raised - and the batch is still attempted: the
batch loop (under spawn success) records every batch, zero-file batches
included, with exactly these indices. -/
theorem kisip_set_batch_start_end_inds_spec (nFile : ℕ) :
    ((kisip_set_batch_start_end_inds nFile).1 = 0
      ∧ (kisip_set_batch_start_end_inds nFile).2.1 = (nFile : ℤ) - 1
      ∧ ((kisip_set_batch_start_end_inds nFile).2.2 = true ↔ nFile = 0))
    ∧ (kisip_set_batch_start_end_inds 0).2.1 = -1
    ∧ (∀ (bl : List ℕ) (fileCount : ℕ → ℕ) (outcome : ℕ → SpawnOutcome),
        (∀ b ∈ bl, outcome b ≠ SpawnOutcome.spawnFail) →
        kisip_despeckle_all_batches bl fileCount outcome =
          Except.ok (bl.map (fun b =>
            (b, (kisip_set_batch_start_end_inds (fileCount b)).1,
              (kisip_set_batch_start_end_inds (fileCount b)).2.1,
              exitCode (outcome b))))) := by
  refine ⟨⟨rfl, rfl, by simp [kisip_set_batch_start_end_inds]⟩, rfl, ?_⟩
  intro bl fileCount outcome h
  unfold kisip_despeckle_all_batches
  rw [kisip_despeckle_batches_ok fileCount outcome bl [] h]
  simp [kisip_set_batch_start_end_inds]

/-- Witness for claim C8 at a concrete input: a batch whose glob matches
zero files gets start index 0, end index -1, the logged-error flag, and
is still attempted by the loop. -/
theorem kisip_set_batch_start_end_inds_spec_witness :
    ((kisip_set_batch_start_end_inds 0).1 = 0
      ∧ (kisip_set_batch_start_end_inds 0).2.1 = ((0 : ℕ) : ℤ) - 1
      ∧ ((kisip_set_batch_start_end_inds 0).2.2 = true ↔ (0 : ℕ) = 0))
    ∧ kisip_despeckle_all_batches [7] (fun _ => 0) (fun _ => SpawnOutcome.exited 2) =
        Except.ok ([7].map (fun b =>
          (b, (kisip_set_batch_start_end_inds ((fun _ => 0) b)).1,
            (kisip_set_batch_start_end_inds ((fun _ => 0) b)).2.1,
            exitCode ((fun _ => SpawnOutcome.exited 2) b)))) := by
  have h := kisip_set_batch_start_end_inds_spec 0
  exact ⟨h.1, h.2.2 [7] (fun _ => 0) (fun _ => SpawnOutcome.exited 2) (by decide)⟩

/-! ### Claim C2: the gain table -/

/-- Helper: inserting an element into a run of copies of itself. -/
theorem insertSorted_replicate (q : ℚ) : ∀ k : ℕ,
    insertSorted q (List.replicate k q) = List.replicate (k + 1) q := by
  intro k
  induction k with
  | zero => rfl
  | succ k ih =>
      simp only [List.replicate_succ, insertSorted, if_pos (le_refl q)]

/-- Helper: a constant list is its own sort. -/
theorem sortRats_replicate (q : ℚ) : ∀ n : ℕ,
    sortRats (List.replicate n q) = List.replicate n q := by
  intro n
  induction n with
  | zero => rfl
  | succ n ih =>
      simp only [List.replicate_succ, sortRats, ih, insertSorted_replicate]

/-- Helper: `getD` on a replicate inside its bounds. -/
theorem getD_replicate_of_lt (q d : ℚ) {i n : ℕ} (h : i < n) :
    (List.replicate n q).getD i d = q := by
  rw [List.getD_eq_getElem?_getD, List.getElem?_replicate, if_pos h]
  rfl

/-- Helper: the median of a nonempty constant array is the constant. -/
theorem npMedian_replicate (q : ℚ) {n : ℕ} (hn : 0 < n) :
    npMedian (List.replicate n q) = q := by
  unfold npMedian
  rw [sortRats_replicate, List.length_replicate]
  by_cases hpar : n % 2 = 1
  · rw [if_pos hpar, getD_replicate_of_lt q 0 (Nat.div_lt_self hn (by norm_num))]
  · rw [if_neg hpar]
    have h2 : n / 2 < n := Nat.div_lt_self hn (by norm_num)
    have h1 : n / 2 - 1 < n := lt_of_le_of_lt (Nat.sub_le _ _) h2
    rw [getD_replicate_of_lt q 0 h1, getD_replicate_of_lt q 0 h2]
    ring

/-- Claim C2: after `rosa_zyla_compute_gain` runs on `avgFlat` and
`avgDark`, every element whose difference `(avgFlat - avgDark)[i]` is
nonzero holds `median(avgFlat - avgDark) / (avgFlat - avgDark)[i]`, the
numerator being the scalar median of the whole difference array;
consequently when the difference array is a nonzero constant, the gain
is 1 everywhere. -/
theorem rosa_zyla_compute_gain_spec (avgFlat avgDark : List ℚ) :
    (∀ i : ℕ, i < (List.zipWith (fun a b => a - b) avgFlat avgDark).length →
      (List.zipWith (fun a b => a - b) avgFlat avgDark).getD i 0 ≠ 0 →
      (rosa_zyla_compute_gain avgFlat avgDark).getD i 0 =
        npMedian (List.zipWith (fun a b => a - b) avgFlat avgDark) /
          (List.zipWith (fun a b => a - b) avgFlat avgDark).getD i 0)
    ∧ (∀ q : ℚ, q ≠ 0 →
        List.zipWith (fun a b => a - b) avgFlat avgDark =
          List.replicate (List.zipWith (fun a b => a - b) avgFlat avgDark).length q →
        ∀ i : ℕ, i < (List.zipWith (fun a b => a - b) avgFlat avgDark).length →
        (rosa_zyla_compute_gain avgFlat avgDark).getD i 0 = 1) := by
  set d := List.zipWith (fun a b : ℚ => a - b) avgFlat avgDark with hd
  have hmap : ∀ i : ℕ, i < d.length →
      (rosa_zyla_compute_gain avgFlat avgDark).getD i 0 = npMedian d / d.getD i 0 := by
    intro i hi
    unfold rosa_zyla_compute_gain
    rw [← hd, List.getD_eq_getElem?_getD, List.getElem?_map,
      List.getElem?_eq_getElem hi, List.getD_eq_getElem?_getD,
      List.getElem?_eq_getElem hi]
    rfl
  constructor
  · intro i hi _
    exact hmap i hi
  · intro q hq hrep i hi
    rw [hmap i hi]
    have hlen : 0 < d.length := lt_of_le_of_lt (Nat.zero_le i) hi
    have hget : d.getD i 0 = q := by
      rw [hrep] at hi ⊢
      exact getD_replicate_of_lt q 0 (by simpa using hi)
    have hmed : npMedian d = q := by
      rw [hrep]
      exact npMedian_replicate q (by simpa using hlen)
    rw [hget, hmed, div_self hq]

/-- Witness for claim C2 at a concrete input: `avgFlat = [3, 3]`,
`avgDark = [1, 1]` gives the constant nonzero difference `[2, 2]`, so
both gain entries are 1. -/
theorem rosa_zyla_compute_gain_spec_witness :
    (rosa_zyla_compute_gain [3, 3] [1, 1]).getD 0 0 = 1
    ∧ (rosa_zyla_compute_gain [3, 3] [1, 1]).getD 1 0 = 1 := by
  have hrep : List.zipWith (fun a b : ℚ => a - b) [3, 3] [1, 1] =
      List.replicate (List.zipWith (fun a b : ℚ => a - b) [3, 3] [1, 1]).length 2 := by
    norm_num [List.zipWith, List.replicate]
  have hlen : (List.zipWith (fun a b : ℚ => a - b) [3, 3] [1, 1]).length = 2 := by
    norm_num [List.zipWith]
  exact ⟨(rosa_zyla_compute_gain_spec [3, 3] [1, 1]).2 2 (by norm_num) hrep 0 (by rw [hlen]; norm_num),
    (rosa_zyla_compute_gain_spec [3, 3] [1, 1]).2 2 (by norm_num) hrep 1 (by rw [hlen]; norm_num)⟩

/-! ### Claim C10: the sliced region of a raw read is the top-left corner -/

/-- Helper: `reshapeRows` yields `R` rows. -/
theorem length_reshapeRows : ∀ (R C : ℕ) (buf : List ℕ),
    (reshapeRows R C buf).length = R := by
  intro R
  induction R with
  | zero => intro C buf; rfl
  | succ R ih => intro C buf; simp [reshapeRows, ih]

/-- Helper: row `i` of a row-major reshape is the `C`-sample window of
the buffer starting at offset `i * C`. -/
theorem getElem?_reshapeRows : ∀ (R C : ℕ) (buf : List ℕ) (i : ℕ), i < R →
    (reshapeRows R C buf)[i]? = some ((buf.drop (i * C)).take C) := by
  intro R
  induction R with
  | zero => intro C buf i hi; exact absurd hi (Nat.not_lt_zero i)
  | succ R ih =>
      intro C buf i hi
      match i with
      | 0 => simp [reshapeRows]
      | i + 1 =>
          have hi' : i < R := Nat.lt_of_succ_lt_succ hi
          simp only [reshapeRows, List.getElem?_cons_succ]
          rw [ih C (buf.drop C) i hi', List.drop_drop]
          have : C + i * C = (i + 1) * C := by ring
          rw [this]

/-- Claim C10: whenever the raw buffer reshapes to `dataShape = (R, C)`,
`rosa_zyla_read_binary_image` returns an array of shape exactly
`imageShape = (r, c)` that is the top-left corner of the reshaped
buffer: element `(i, j)` of the result equals element `i * C + j` of the
flat buffer for all `i < r`, `j < c` - the usable region is always cut
from index 0 of every axis. -/
theorem rosa_zyla_read_binary_image_top_left (buf : List ℕ) (R C r c : ℕ)
    (hbuf : buf.length = R * C) (hr : r ≤ R) (hc : c ≤ C) :
    ∃ im : List (List ℕ), rosa_zyla_read_binary_image buf R C r c = some im
      ∧ im.length = r
      ∧ (∀ row ∈ im, row.length = c)
      ∧ (∀ i j : ℕ, i < r → j < c →
          (im.getD i []).getD j 0 = buf.getD (i * C + j) 0) := by
  refine ⟨((reshapeRows R C buf).take r).map (fun row => row.take c), ?_, ?_, ?_, ?_⟩
  · unfold rosa_zyla_read_binary_image
    rw [if_pos hbuf]
  · rw [List.length_map, List.length_take, length_reshapeRows]
    exact min_eq_left hr
  · intro row hrow
    rcases List.mem_map.mp hrow with ⟨row', hrow', hEq⟩
    have hmem : row' ∈ reshapeRows R C buf := List.mem_of_mem_take hrow'
    rcases List.mem_iff_getElem.mp hmem with ⟨i, hilt, hiEq⟩
    have hiR : i < R := by
      have := hilt
      rwa [length_reshapeRows] at this
    have hrow'' : row' = (buf.drop (i * C)).take C := by
      have h1 := getElem?_reshapeRows R C buf i hiR
      rw [List.getElem?_eq_getElem hilt, hiEq] at h1
      exact Option.some.inj h1
    subst hEq
    rw [hrow'', List.length_take, List.length_take, List.length_drop, hbuf]
    have hwin : C ≤ R * C - i * C := by
      have h1 : (i + 1) * C ≤ R * C := Nat.mul_le_mul_right C hiR
      have h2 : i * C + C ≤ R * C := by rw [← Nat.succ_mul]; exact h1
      omega
    rw [min_eq_left hwin, min_eq_left hc]
  · intro i j hi hj
    have hiR : i < R := lt_of_lt_of_le hi hr
    have hjC : j < C := lt_of_lt_of_le hj hc
    have hidx : i * C + j < R * C := by
      have h1 : (i + 1) * C ≤ R * C := Nat.mul_le_mul_right C hiR
      have h2 : i * C + C ≤ R * C := by rw [← Nat.succ_mul]; exact h1
      omega
    have hrowi : (((reshapeRows R C buf).take r).map (fun row => row.take c))[i]? =
        some (((buf.drop (i * C)).take C).take c) := by
      rw [List.getElem?_map, List.getElem?_take, if_pos hi,
        getElem?_reshapeRows R C buf i hiR]
      rfl
    have houter : (((reshapeRows R C buf).take r).map (fun row => row.take c)).getD i [] =
        ((buf.drop (i * C)).take C).take c := by
      rw [List.getD_eq_getElem?_getD, hrowi]
      rfl
    rw [houter, List.getD_eq_getElem?_getD, List.getElem?_take, if_pos hj,
      List.getElem?_take, if_pos hjC, List.getElem?_drop,
      List.getD_eq_getElem?_getD]

/-- Witness for claim C10 at a concrete input: a 6-sample buffer with
`dataShape (2, 3)` and `imageShape (1, 2)` yields the single row
`[10, 11]`, the top-left corner of `[[10, 11, 12], [13, 14, 15]]`. -/
theorem rosa_zyla_read_binary_image_top_left_witness :
    ∃ im : List (List ℕ), rosa_zyla_read_binary_image [10, 11, 12, 13, 14, 15] 2 3 1 2 = some im
      ∧ im.length = 1
      ∧ (∀ row ∈ im, row.length = 2)
      ∧ (∀ i j : ℕ, i < 1 → j < 2 →
          (im.getD i []).getD j 0 = ([10, 11, 12, 13, 14, 15] : List ℕ).getD (i * 3 + j) 0) :=
  rosa_zyla_read_binary_image_top_left [10, 11, 12, 13, 14, 15] 2 3 1 2
    (by decide) (by decide) (by decide)

/-! ### Claims C3 and C9: the burst batcher -/

/-- Helper: with too few frames to fill the cube, the burst loop ends
without emitting anything further. -/
theorem goBursts_remainder (gain avgDark : List ℚ) (b : ℕ) :
    ∀ (files cube : List (List ℚ)) (burst : ℕ) (batch : ℤ)
      (acc : List BurstRec × List ℕ),
      files.length + cube.length < b →
      goBursts gain avgDark b files cube burst batch acc = acc := by
  intro files
  induction files with
  | nil =>
      intro cube burst batch acc _
      obtain ⟨recs, bl⟩ := acc
      rfl
  | cons f fs ih =>
      intro cube burst batch acc h
      obtain ⟨recs, bl⟩ := acc
      simp only [goBursts]
      have hlt : (cube ++ [rosa_zyla_flatfield_correction gain avgDark f]).length ≠ b := by
        simp only [List.length_append, List.length_cons, List.length_nil]
        simp only [List.length_cons] at h
        omega
      rw [if_neg hlt]
      apply ih
      simp only [List.length_append, List.length_cons, List.length_nil]
      simp only [List.length_cons] at h
      omega

/-- Helper: one unfolding step of the burst loop on a cons cell, stated
without `let` bindings. -/
theorem goBursts_cons (gain avgDark : List ℚ) (b : ℕ) (f : List ℚ)
    (fs cube : List (List ℚ)) (burst : ℕ) (batch : ℤ)
    (recs : List BurstRec) (bl : List ℕ) :
    goBursts gain avgDark b (f :: fs) cube burst batch (recs, bl) =
      if (cube ++ [rosa_zyla_flatfield_correction gain avgDark f]).length = b then
        goBursts gain avgDark b fs [] (burst + 1) ((burst / 1000 : ℕ) : ℤ)
          (recs ++ [⟨burst, burst / 1000, burst % 1000,
            cube ++ [rosa_zyla_flatfield_correction gain avgDark f]⟩],
           if ((burst / 1000 : ℕ) : ℤ) ≠ batch then bl ++ [burst / 1000] else bl)
      else
        goBursts gain avgDark b fs (cube ++ [rosa_zyla_flatfield_correction gain avgDark f])
          burst batch (recs, bl) := rfl

/-- Helper: consuming exactly enough frames to fill the cube emits one
complete burst record, updates the batch list, and resets the buffer. -/
theorem goBursts_chunk (gain avgDark : List ℚ) (b : ℕ) :
    ∀ (chunk rest cube : List (List ℚ)) (burst : ℕ) (batch : ℤ)
      (recs : List BurstRec) (bl : List ℕ),
      cube.length + chunk.length = b → chunk ≠ [] →
      goBursts gain avgDark b (chunk ++ rest) cube burst batch (recs, bl) =
        goBursts gain avgDark b rest [] (burst + 1) ((burst / 1000 : ℕ) : ℤ)
          (recs ++ [⟨burst, burst / 1000, burst % 1000,
            cube ++ chunk.map (rosa_zyla_flatfield_correction gain avgDark)⟩],
           bl ++ (if ((burst / 1000 : ℕ) : ℤ) ≠ batch then [burst / 1000] else [])) := by
  intro chunk
  induction chunk with
  | nil => intro rest cube burst batch recs bl _ hne; exact absurd rfl hne
  | cons f t ih =>
      intro rest cube burst batch recs bl hlen _
      match t with
      | [] =>
          have hfull : (cube ++ [rosa_zyla_flatfield_correction gain avgDark f]).length = b := by
            simp only [List.length_append, List.length_cons, List.length_nil]
            simp only [List.length_cons, List.length_nil] at hlen
            omega
          rw [List.cons_append, List.nil_append, goBursts_cons, if_pos hfull]
          by_cases hcond : ((burst / 1000 : ℕ) : ℤ) ≠ batch
          · rw [if_pos hcond, if_pos hcond]
            rfl
          · rw [if_neg hcond, if_neg hcond, List.append_nil]
            rfl
      | g :: t' =>
          have hne : (cube ++ [rosa_zyla_flatfield_correction gain avgDark f]).length ≠ b := by
            simp only [List.length_append, List.length_cons, List.length_nil]
            simp only [List.length_cons] at hlen
            omega
          rw [List.cons_append, goBursts_cons, if_neg hne]
          rw [ih rest (cube ++ [rosa_zyla_flatfield_correction gain avgDark f])
            burst batch recs bl
            (by
              simp only [List.length_append, List.length_cons, List.length_nil]
              simp only [List.length_cons] at hlen
              omega)
            (by simp)]
          simp [List.append_assoc]

/-- Helper: closed form of the burst loop started on an empty cube:
`files.length / b` complete bursts are emitted with sequential indices
from `burst`, batch id `index / 1000`, within-batch id `index % 1000`,
the `t`-th cube holding the corrected frames `t*b ..< t*b + b`, and the
appended batch ids given by `batchSeg`. -/
theorem goBursts_closed (gain avgDark : List ℚ) (b : ℕ) (hb : 0 < b) :
    ∀ (n : ℕ) (files : List (List ℚ)), files.length ≤ n →
      ∀ (burst : ℕ) (batch : ℤ) (recs : List BurstRec) (bl : List ℕ),
      goBursts gain avgDark b files [] burst batch (recs, bl) =
        (recs ++ (List.range (files.length / b)).map (fun t =>
            ⟨burst + t, (burst + t) / 1000, (burst + t) % 1000,
              ((files.drop (t * b)).take b).map
                (rosa_zyla_flatfield_correction gain avgDark)⟩),
         bl ++ batchSeg burst (files.length / b) batch) := by
  intro n
  induction n with
  | zero =>
      intro files hf burst batch recs bl
      have hnil : files = [] := List.length_eq_zero.mp (Nat.le_zero.mp hf)
      subst hnil
      simp [goBursts, batchSeg]
  | succ n ih =>
      intro files hf burst batch recs bl
      by_cases hsmall : files.length < b
      · have hdiv : files.length / b = 0 := Nat.div_eq_of_lt hsmall
        rw [goBursts_remainder gain avgDark b files [] burst batch (recs, bl)
          (by simp only [List.length_nil]; omega)]
        simp [hdiv, batchSeg]
      · push_neg at hsmall
        have htake_len : (files.take b).length = b := by
          rw [List.length_take]
          exact min_eq_left hsmall
        have htake_ne : files.take b ≠ [] := by
          intro hnil
          rw [hnil] at htake_len
          simp only [List.length_nil] at htake_len
          omega
        have hstep := goBursts_chunk gain avgDark b (files.take b) (files.drop b) []
          burst batch recs bl (by simpa using htake_len) htake_ne
        have h1 : goBursts gain avgDark b files [] burst batch (recs, bl) =
            goBursts gain avgDark b (files.drop b) [] (burst + 1) ((burst / 1000 : ℕ) : ℤ)
              (recs ++ [⟨burst, burst / 1000, burst % 1000,
                (files.take b).map (rosa_zyla_flatfield_correction gain avgDark)⟩],
               bl ++ (if ((burst / 1000 : ℕ) : ℤ) ≠ batch then [burst / 1000] else [])) := by
          conv_lhs => rw [← List.take_append_drop b files]
          rw [hstep]
          simp
        rw [h1, ih (files.drop b) (by rw [List.length_drop]; omega) (burst + 1) _ _ _]
        have hm : files.length / b = (files.drop b).length / b + 1 := by
          rw [List.length_drop]
          exact Nat.div_eq_sub_div hb hsmall
        rw [hm]
        simp only [Prod.mk.injEq]
        constructor
        · rw [List.range_succ_eq_map, List.map_cons, List.map_map, List.append_assoc,
            List.singleton_append]
          congr 1
          congr 1
          · simp
          · apply List.map_congr_left
            intro t _
            simp only [Function.comp_apply, Nat.succ_eq_add_one]
            have harith1 : burst + (t + 1) = burst + 1 + t := by omega
            have harith2 : (t + 1) * b = b + t * b := by ring
            rw [List.drop_drop, harith1, harith2]
        · rw [List.append_assoc]
          simp only [batchSeg]

/-- Helper: closed form of the ZYLA `rosa_zyla_save_bursts`. -/
theorem rosa_zyla_save_bursts_eq (gain avgDark : List ℚ) (dataList : List (List ℚ))
    (b : ℕ) (hb : 0 < b) :
    rosa_zyla_save_bursts gain avgDark dataList b =
      ((List.range (dataList.length / b)).map (fun t =>
          ⟨t, t / 1000, t % 1000,
            ((dataList.drop (t * b)).take b).map
              (rosa_zyla_flatfield_correction gain avgDark)⟩),
       batchSeg 0 (dataList.length / b) (-1)) := by
  unfold rosa_zyla_save_bursts
  have hlen : (dataList.take (dataList.length / b * b)).length = dataList.length / b * b := by
    rw [List.length_take]
    exact min_eq_left (Nat.div_mul_le_self _ _)
  rw [goBursts_closed gain avgDark b hb (dataList.take (dataList.length / b * b)).length _
    le_rfl 0 (-1) [] []]
  rw [hlen, Nat.mul_div_cancel _ hb]
  simp only [List.nil_append, Nat.zero_add]
  congr 1
  apply List.map_congr_left
  intro t ht
  have htm : t < dataList.length / b := List.mem_range.mp ht
  have hchunk : ((dataList.take (dataList.length / b * b)).drop (t * b)).take b =
      (dataList.drop (t * b)).take b := by
    rw [List.drop_take, List.take_take]
    have h1 : (t + 1) * b ≤ dataList.length / b * b := Nat.mul_le_mul_right b htm
    have h3 : (t + 1) * b = t * b + b := by ring
    have hle : b ≤ dataList.length / b * b - t * b := by omega
    rw [min_eq_left hle]
  rw [hchunk]

/-- Claim C3: for every ordered data list of `N` frames and every
`burstNumber > 0`, the ZYLA branch of `rosa_zyla_save_bursts` emits
exactly `N / burstNumber` complete burst cubes with burst indices
`0 ..< N / burstNumber`, assigning each burst
`batchId = burstIndex / 1000` and `withinBatch = burstIndex % 1000`,
where the cube of burst `k` holds exactly the `burstNumber` corrected
frames `k*burstNumber ..< (k+1)*burstNumber`; the remaining
`N % burstNumber` frames are dropped, never emitted as a partial burst
(in particular, 25 frames with `burstNumber = 10` give exactly 2 bursts,
indices 0 and 1, both in batch 0, and 5 dropped frames - see the
witness). -/
theorem rosa_zyla_save_bursts_spec (gain avgDark : List ℚ)
    (dataList : List (List ℚ)) (b : ℕ) (hb : 0 < b) :
    (rosa_zyla_save_bursts gain avgDark dataList b).1.length = dataList.length / b
    ∧ (∀ k : ℕ, k < dataList.length / b →
        ((rosa_zyla_save_bursts gain avgDark dataList b).1)[k]? =
          some ⟨k, k / 1000, k % 1000,
            ((dataList.drop (k * b)).take b).map
              (rosa_zyla_flatfield_correction gain avgDark)⟩)
    ∧ (∀ br ∈ (rosa_zyla_save_bursts gain avgDark dataList b).1,
        br.cube.length = b) := by
  rw [rosa_zyla_save_bursts_eq gain avgDark dataList b hb]
  refine ⟨by simp, ?_, ?_⟩
  · intro k hk
    rw [List.getElem?_map, List.getElem?_range hk]
    rfl
  · intro br hbr
    rcases List.mem_map.mp hbr with ⟨t, ht, hEq⟩
    have htm : t < dataList.length / b := List.mem_range.mp ht
    subst hEq
    have h1 : (t + 1) * b ≤ dataList.length / b * b := Nat.mul_le_mul_right b htm
    have h2 : dataList.length / b * b ≤ dataList.length := Nat.div_mul_le_self _ _
    have h3 : (t + 1) * b = t * b + b := by ring
    simp only [List.length_map, List.length_take, List.length_drop]
    have hle : b ≤ dataList.length - t * b := by omega
    rw [min_eq_left hle]

/-- Witness for claim C3 at the concrete input of the claim: 25 frames
and `burstNumber = 10` - the theorem applies and yields exactly
`25 / 10 = 2` complete bursts (indices 0 and 1, both with batch id
`k / 1000 = 0`), every cube holding 10 frames, and `25 % 10 = 5` frames
dropped. -/
theorem rosa_zyla_save_bursts_spec_witness :
    (0 : ℕ) < 10
    ∧ ((rosa_zyla_save_bursts [1] [0] (List.replicate 25 [(1 : ℚ)]) 10).1.length =
          (List.replicate 25 [(1 : ℚ)]).length / 10
      ∧ (∀ k : ℕ, k < (List.replicate 25 [(1 : ℚ)]).length / 10 →
          ((rosa_zyla_save_bursts [1] [0] (List.replicate 25 [(1 : ℚ)]) 10).1)[k]? =
            some ⟨k, k / 1000, k % 1000,
              (((List.replicate 25 [(1 : ℚ)]).drop (k * 10)).take 10).map
                (rosa_zyla_flatfield_correction [1] [0])⟩)
      ∧ (∀ br ∈ (rosa_zyla_save_bursts [1] [0] (List.replicate 25 [(1 : ℚ)]) 10).1,
          br.cube.length = 10)) :=
  ⟨by norm_num, rosa_zyla_save_bursts_spec [1] [0] (List.replicate 25 [(1 : ℚ)]) 10 (by norm_num)⟩

/-- Helper: closed form of `batchSeg` from a state whose batch id has
already been appended: the ids appended over the next `m` bursts are the
consecutive run of new thousands-quotients. -/
theorem batchSeg_closed : ∀ (m j : ℕ),
    batchSeg j m ((j / 1000 : ℕ) : ℤ) =
      List.range' (j / 1000 + 1) ((j + m - 1) / 1000 - j / 1000) := by
  intro m
  induction m using Nat.strong_induction_on with
  | _ m ih =>
    intro j
    match m with
    | 0 =>
        have hcnt : (j + 0 - 1) / 1000 - j / 1000 = 0 := by omega
        rw [hcnt, List.range'_zero]
        rfl
    | m + 1 =>
        have hstep : batchSeg j (m + 1) ((j / 1000 : ℕ) : ℤ) =
            batchSeg (j + 1) m ((j / 1000 : ℕ) : ℤ) := by
          simp [batchSeg]
        rw [hstep]
        by_cases hdvd : (j + 1) % 1000 = 0
        · have hq1 : (j + 1) / 1000 = j / 1000 + 1 := by omega
          match m with
          | 0 =>
              have hcnt : (j + (0 + 1) - 1) / 1000 - j / 1000 = 0 := by omega
              rw [hcnt, List.range'_zero]
              rfl
          | m + 1 =>
              have hcond : (((j + 1) / 1000 : ℕ) : ℤ) ≠ ((j / 1000 : ℕ) : ℤ) := by omega
              have hq2 : (j + 2) / 1000 = (j + 1) / 1000 := by omega
              simp only [batchSeg, if_pos hcond]
              have hcast : (((j + 1) / 1000 : ℕ) : ℤ) = (((j + 2) / 1000 : ℕ) : ℤ) := by omega
              rw [hcast, ih m (by omega) (j + 2)]
              have hcnt : (j + (m + 1 + 1) - 1) / 1000 - j / 1000 =
                  ((j + 2 + m - 1) / 1000 - (j + 2) / 1000) + 1 := by omega
              rw [hcnt, List.range'_succ, List.singleton_append, hq2, hq1]
        · have hq : (j + 1) / 1000 = j / 1000 := by omega
          have hcast : ((j / 1000 : ℕ) : ℤ) = (((j + 1) / 1000 : ℕ) : ℤ) := by omega
          rw [hcast, ih m (by omega) (j + 1)]
          have hstart : (j + 1) / 1000 + 1 = j / 1000 + 1 := by omega
          have hcnt : (j + 1 + m - 1) / 1000 - (j + 1) / 1000 =
              (j + (m + 1) - 1) / 1000 - j / 1000 := by omega
          rw [hstart, hcnt]

/-- Helper: the batch list produced by emitting bursts `0 ..< n` from the
initial sentinel `batch = -1` is `[0, 1, ..., (n-1)/1000]`. -/
theorem batchSeg_start (n : ℕ) (hn : 1 ≤ n) :
    batchSeg 0 n (-1) = List.range ((n - 1) / 1000 + 1) := by
  match n, hn with
  | n + 1, _ =>
      have hcond : (((0 / 1000 : ℕ) : ℕ) : ℤ) ≠ (-1 : ℤ) := by omega
      simp only [batchSeg, if_pos hcond]
      have hcast : (((0 / 1000 : ℕ) : ℕ) : ℤ) = (((1 / 1000 : ℕ) : ℕ) : ℤ) := by omega
      rw [hcast, batchSeg_closed n 1]
      have hcnt : (1 + n - 1) / 1000 - 1 / 1000 = n / 1000 := by omega
      have hstart : 1 / 1000 + 1 = 1 := by omega
      rw [hcnt, hstart, List.range_eq_range', show (0 : ℕ) / 1000 = 0 from rfl]
      have : n / 1000 + 1 = n / 1000 + 1 := rfl
      rw [show (n + 1 - 1) / 1000 + 1 = n / 1000 + 1 by omega, List.range'_succ]
      simp

/-- Claim C9: after `rosa_zyla_save_bursts` completes - for either
instrument family - the batch list is exactly the strictly increasing
sequence `0, 1, ..., (numberOfCompleteBursts - 1) / 1000`: each batch id
appears exactly once, in first-seen order, with no duplicates. -/
theorem rosa_zyla_save_bursts_batch_list (gain avgDark : List ℚ)
    (zylaData : List (List ℚ)) (rosaData : List (List (List ℚ))) (b : ℕ) (hb : 0 < b)
    (hz : 1 ≤ zylaData.length / b) (hrr : 1 ≤ rosaData.flatten.length / b) :
    ((rosa_zyla_save_bursts gain avgDark zylaData b).2 =
        List.range ((zylaData.length / b - 1) / 1000 + 1)
      ∧ (rosa_zyla_save_bursts gain avgDark zylaData b).2.Nodup)
    ∧ ((rosa_zyla_save_bursts_rosa gain avgDark rosaData b).2 =
        List.range ((rosaData.flatten.length / b - 1) / 1000 + 1)
      ∧ (rosa_zyla_save_bursts_rosa gain avgDark rosaData b).2.Nodup) := by
  have hzyla : (rosa_zyla_save_bursts gain avgDark zylaData b).2 =
      batchSeg 0 (zylaData.length / b) (-1) := by
    rw [rosa_zyla_save_bursts_eq gain avgDark zylaData b hb]
  have hrosa : (rosa_zyla_save_bursts_rosa gain avgDark rosaData b).2 =
      batchSeg 0 (rosaData.flatten.length / b) (-1) := by
    unfold rosa_zyla_save_bursts_rosa
    rw [goBursts_closed gain avgDark b hb rosaData.flatten.length _ le_rfl 0 (-1) [] []]
    simp
  rw [hzyla, hrosa, batchSeg_start _ hz, batchSeg_start _ hrr]
  exact ⟨⟨rfl, List.nodup_range _⟩, rfl, List.nodup_range _⟩

/-- Witness for claim C9 at a concrete input: 3 Zyla frames with
`burstNumber = 2` give one complete burst and batch list `[0]`; one ROSA
file of two sub-frames likewise. -/
theorem rosa_zyla_save_bursts_batch_list_witness :
    (0 : ℕ) < 2 ∧ 1 ≤ (List.replicate 3 [(1 : ℚ)]).length / 2
    ∧ 1 ≤ ([[[(1 : ℚ)], [(1 : ℚ)]]] : List (List (List ℚ))).flatten.length / 2
    ∧ (((rosa_zyla_save_bursts [1] [0] (List.replicate 3 [(1 : ℚ)]) 2).2 =
          List.range (((List.replicate 3 [(1 : ℚ)]).length / 2 - 1) / 1000 + 1)
        ∧ (rosa_zyla_save_bursts [1] [0] (List.replicate 3 [(1 : ℚ)]) 2).2.Nodup)
      ∧ ((rosa_zyla_save_bursts_rosa [1] [0] [[[(1 : ℚ)], [(1 : ℚ)]]] 2).2 =
          List.range ((([[[(1 : ℚ)], [(1 : ℚ)]]] : List (List (List ℚ))).flatten.length / 2 - 1) / 1000 + 1)
        ∧ (rosa_zyla_save_bursts_rosa [1] [0] [[[(1 : ℚ)], [(1 : ℚ)]]] 2).2.Nodup)) :=
  ⟨by norm_num, by norm_num, by norm_num,
    rosa_zyla_save_bursts_batch_list [1] [0] (List.replicate 3 [(1 : ℚ)])
      [[[(1 : ℚ)], [(1 : ℚ)]]] 2 (by norm_num) (by norm_num) (by norm_num)⟩

/-! ### Claim C4: file ordering for the Zyla family -/

/-- Helper: a file with a decoded index has a nonempty name. -/
theorem decodeIndex_ne_nil {f : List Char} {i : ℕ} (h : decodeIndex f = some i) :
    f ≠ [] := by
  intro hnil
  subst hnil
  have h0 : decodeIndex ([] : List Char) = none := rfl
  rw [h0] at h
  exact Option.noConfusion h

/-- Helper: setting one slot adds at most one nonempty slot. -/
theorem countFilled_set_le : ∀ (l : List (List Char)) (i : ℕ) (x : List Char),
    ((l.set i x).filter (fun s => !s.isEmpty)).length ≤
      (l.filter (fun s => !s.isEmpty)).length + 1 := by
  intro l
  induction l with
  | nil => intro i x; simp
  | cons a t ih =>
      intro i x
      match i with
      | 0 =>
          simp only [List.set, List.filter_cons]
          by_cases hx : (!x.isEmpty) = true
          · rw [if_pos hx]
            by_cases ha : (!a.isEmpty) = true
            · rw [if_pos ha]
              simp only [List.length_cons]
              omega
            · rw [if_neg ha]
              simp only [List.length_cons]
              omega
          · rw [if_neg hx]
            by_cases ha : (!a.isEmpty) = true
            · rw [if_pos ha]
              simp only [List.length_cons]
              omega
            · rw [if_neg ha]
              omega
      | i + 1 =>
          simp only [List.set, List.filter_cons]
          by_cases ha : (!a.isEmpty) = true
          · rw [if_pos ha, if_pos ha]
            simp only [List.length_cons]
            have := ih i x
            omega
          · rw [if_neg ha, if_neg ha]
            exact ih i x

/-- Helper: a successful placement run preserves the slot count and
fills at most one slot per file carrying a decoded index. -/
theorem placeFiles_count : ∀ (fs acc res : List (List Char)),
    placeFiles fs acc = Except.ok res →
    res.length = acc.length
    ∧ (res.filter (fun s => !s.isEmpty)).length ≤
        (acc.filter (fun s => !s.isEmpty)).length +
          (fs.filter (fun f => (decodeIndex f).isSome)).length := by
  intro fs
  induction fs with
  | nil =>
      intro acc res h
      simp only [placeFiles] at h
      cases h
      simp
  | cons f t ih =>
      intro acc res h
      simp only [placeFiles] at h
      split at h
      · -- decodeIndex f = none
        next hdec =>
          obtain ⟨h1, h2⟩ := ih acc res h
          refine ⟨h1, ?_⟩
          rw [List.filter_cons]
          have hp : ((decodeIndex f).isSome = true) = False := by simp [hdec]
          rw [if_neg (by simp [hdec])]
          exact h2
      · -- decodeIndex f = some i
        next i hdec =>
          split at h
          · next hi =>
              obtain ⟨h1, h2⟩ := ih (acc.set i f) res h
              rw [List.length_set] at h1
              refine ⟨h1, ?_⟩
              rw [List.filter_cons, if_pos (by simp [hdec])]
              have h3 := countFilled_set_le acc i f
              simp only [List.length_cons]
              omega
          · next hi => exact Except.noConfusion h

/-- Helper: placement succeeds whenever every decoded index is in range. -/
theorem placeFiles_ok_of_inrange : ∀ (fs acc : List (List Char)),
    (∀ f ∈ fs, ∀ i : ℕ, decodeIndex f = some i → i < acc.length) →
    ∃ res, placeFiles fs acc = Except.ok res := by
  intro fs
  induction fs with
  | nil => intro acc _; exact ⟨acc, rfl⟩
  | cons f t ih =>
      intro acc hrange
      cases hdec : decodeIndex f with
      | none =>
          obtain ⟨res, hres⟩ := ih acc
            (fun g hg j hj => hrange g (List.mem_cons_of_mem f hg) j hj)
          refine ⟨res, ?_⟩
          simp only [placeFiles, hdec]
          exact hres
      | some i =>
          have hi : i < acc.length := hrange f (List.mem_cons_self f t) i hdec
          obtain ⟨res, hres⟩ := ih (acc.set i f)
            (fun g hg j hj => by
              rw [List.length_set]
              exact hrange g (List.mem_cons_of_mem f hg) j hj)
          refine ⟨res, ?_⟩
          simp only [placeFiles, hdec, if_pos hi]
          exact hres

/-- Helper: with in-range, pairwise-distinct, always-present decoded
indices, placement succeeds, puts every file into its decoded slot and
leaves every other slot untouched. -/
theorem placeFiles_ok : ∀ (fs acc : List (List Char)),
    (∀ f ∈ fs, ∀ i : ℕ, decodeIndex f = some i → i < acc.length) →
    (fs.map decodeIndex).Nodup →
    (∀ f ∈ fs, decodeIndex f ≠ none) →
    ∃ res, placeFiles fs acc = Except.ok res
      ∧ res.length = acc.length
      ∧ (∀ j : ℕ, (∀ f ∈ fs, decodeIndex f ≠ some j) → res.getD j [] = acc.getD j [])
      ∧ (∀ f ∈ fs, ∀ j : ℕ, decodeIndex f = some j → res.getD j [] = f) := by
  intro fs
  induction fs with
  | nil =>
      intro acc _ _ _
      exact ⟨acc, rfl, rfl, fun j _ => rfl,
        fun f hf => absurd hf (List.not_mem_nil f)⟩
  | cons f t ih =>
      intro acc hrange hnodup hsome
      cases hdec : decodeIndex f with
      | none => exact absurd hdec (hsome f (List.mem_cons_self f t))
      | some i =>
          have hi : i < acc.length := hrange f (List.mem_cons_self f t) i hdec
          have hplace : placeFiles (f :: t) acc = placeFiles t (acc.set i f) := by
            simp only [placeFiles, hdec, if_pos hi]
          rw [List.map_cons, List.nodup_cons] at hnodup
          have hnodup' := hnodup.2
          have hnotmem : decodeIndex f ∉ t.map decodeIndex := hnodup.1
          obtain ⟨res, hres, hlen, huntouched, hplaced⟩ := ih (acc.set i f)
            (fun g hg j hj => by
              rw [List.length_set]
              exact hrange g (List.mem_cons_of_mem f hg) j hj)
            hnodup'
            (fun g hg => hsome g (List.mem_cons_of_mem f hg))
          refine ⟨res, by rw [hplace]; exact hres, by rw [hlen, List.length_set], ?_, ?_⟩
          · intro j hj
            have hij : i ≠ j := fun hEq => (hj f (List.mem_cons_self f t)) (hEq ▸ hdec)
            rw [huntouched j (fun g hg => hj g (List.mem_cons_of_mem f hg))]
            rw [List.getD_eq_getElem?_getD, List.getElem?_set_ne hij,
              ← List.getD_eq_getElem?_getD]
          · intro g hg j hj
            rcases List.mem_cons.mp hg with hgf | hgt
            · subst hgf
              have hji : j = i := by
                rw [hdec] at hj
                exact (Option.some.inj hj).symm
              subst hji
              have hnot : ∀ g' ∈ t, decodeIndex g' ≠ some j := by
                intro g' hg' hEq
                exact hnotmem (by rw [hdec, ← hEq]; exact List.mem_map_of_mem _ hg')
              rw [huntouched j hnot, List.getD_eq_getElem?_getD,
                List.getElem?_set_self hi]
              rfl
            · exact hplaced g hgt j hj

/-- Claim C4: for the Zyla family, when the filenames decode (leading
digit string reversed and parsed) to exactly the indices
`0 ..< N` in some order, `rosa_zyla_order_file_list` succeeds and places
each file at its decoded index, restoring exact index order regardless
of the input permutation; and any list containing a filename without a
leading numeric token fails with an error - with the gap check
(`assert(all(orderList))`) firing whenever placement itself completes,
in particular whenever every decoded index is in range. -/
theorem rosa_zyla_order_files_spec (fList : List (List Char)) :
    ((fList.map decodeIndex).Perm ((List.range fList.length).map some) →
      ∃ ordered, rosa_zyla_order_file_list fList = Except.ok ordered
        ∧ ordered.length = fList.length
        ∧ (∀ f ∈ fList, ∀ i : ℕ, decodeIndex f = some i → ordered.getD i [] = f)
        ∧ (∀ i : ℕ, i < fList.length → decodeIndex (ordered.getD i []) = some i))
    ∧ ((∃ f ∈ fList, decodeIndex f = none) →
        ∃ e, rosa_zyla_order_file_list fList = Except.error e)
    ∧ ((∃ f ∈ fList, decodeIndex f = none) →
        (∀ f ∈ fList, ∀ i : ℕ, decodeIndex f = some i → i < fList.length) →
        rosa_zyla_order_file_list fList = Except.error OrderErr.gapError) := by
  have hcover : ∀ (hperm : (fList.map decodeIndex).Perm
      ((List.range fList.length).map some)) (j : ℕ), j < fList.length →
      ∃ f ∈ fList, decodeIndex f = some j := by
    intro hperm j hj
    have h1 : some j ∈ (List.range fList.length).map some :=
      List.mem_map_of_mem some (List.mem_range.mpr hj)
    have h2 : some j ∈ fList.map decodeIndex := hperm.mem_iff.mpr h1
    rcases List.mem_map.mp h2 with ⟨f, hf, hEq⟩
    exact ⟨f, hf, hEq⟩
  refine ⟨?_, ?_, ?_⟩
  · intro hperm
    have hrange : ∀ f ∈ fList, ∀ i : ℕ, decodeIndex f = some i →
        i < (List.replicate fList.length ([] : List Char)).length := by
      intro f hf i hEq
      rw [List.length_replicate]
      have h1 : decodeIndex f ∈ fList.map decodeIndex := List.mem_map_of_mem _ hf
      have h2 : decodeIndex f ∈ (List.range fList.length).map some := hperm.mem_iff.mp h1
      rcases List.mem_map.mp h2 with ⟨x, hx, hEq2⟩
      rw [hEq] at hEq2
      rw [← Option.some.inj hEq2]
      exact List.mem_range.mp hx
    have hnodup : (fList.map decodeIndex).Nodup :=
      hperm.nodup_iff.mpr (List.Nodup.map (fun a b => Option.some.inj) (List.nodup_range _))
    have hsome : ∀ f ∈ fList, decodeIndex f ≠ none := by
      intro f hf hEq
      have h1 : decodeIndex f ∈ fList.map decodeIndex := List.mem_map_of_mem _ hf
      have h2 := hperm.mem_iff.mp h1
      rw [hEq] at h2
      rcases List.mem_map.mp h2 with ⟨x, _, hEq2⟩
      exact Option.noConfusion hEq2
    obtain ⟨res, hres, hlen, _, hplaced⟩ :=
      placeFiles_ok fList (List.replicate fList.length []) hrange hnodup hsome
    rw [List.length_replicate] at hlen
    have hgetD : ∀ j : ℕ, j < fList.length → ∃ f ∈ fList,
        decodeIndex f = some j ∧ res.getD j [] = f := by
      intro j hj
      rcases hcover hperm j hj with ⟨f, hf, hEq⟩
      exact ⟨f, hf, hEq, hplaced f hf j hEq⟩
    have hall : (res.all fun s => !s.isEmpty) = true := by
      rw [List.all_eq_true]
      intro s hs
      rcases List.mem_iff_getElem.mp hs with ⟨j, hjlt, hjEq⟩
      have hjN : j < fList.length := by rw [← hlen]; exact hjlt
      rcases hgetD j hjN with ⟨f, _, hfdec, hfres⟩
      have hsf : s = f := by
        rw [← hjEq, ← hfres, List.getD_eq_getElem?_getD, List.getElem?_eq_getElem hjlt]
        rfl
      have hne := decodeIndex_ne_nil hfdec
      rw [hsf]
      match f, hne with
      | c :: tl, _ => rfl
    refine ⟨res, ?_, hlen, fun f hf i hi => hplaced f hf i hi, ?_⟩
    · simp only [rosa_zyla_order_file_list, hres, if_pos hall]
    · intro i hi
      rcases hgetD i hi with ⟨f, _, hfdec, hfres⟩
      rw [hfres, hfdec]
  · intro hnone
    cases hres : placeFiles fList (List.replicate fList.length []) with
    | error e =>
        refine ⟨e, ?_⟩
        simp only [rosa_zyla_order_file_list, hres]
    | ok res =>
        obtain ⟨hlen, hcount⟩ := placeFiles_count fList _ res hres
        rw [List.length_replicate] at hlen
        have hinit : ((List.replicate fList.length ([] : List Char)).filter
            (fun s => !s.isEmpty)).length = 0 := by
          rw [List.length_eq_zero, List.filter_eq_nil_iff]
          intro a ha
          rw [List.eq_of_mem_replicate ha]
          decide
        have hlt : (fList.filter (fun f => (decodeIndex f).isSome)).length <
            fList.length := by
          rw [List.length_filter_lt_length_iff_exists]
          rcases hnone with ⟨f, hf, hEq⟩
          exact ⟨f, hf, by simp [hEq]⟩
        have hnotall : ¬((res.all fun s => !s.isEmpty) = true) := by
          intro hall
          have hfull : res.filter (fun s => !s.isEmpty) = res :=
            List.filter_eq_self.mpr (List.all_eq_true.mp hall)
          rw [hinit] at hcount
          rw [hfull, hlen] at hcount
          omega
        refine ⟨OrderErr.gapError, ?_⟩
        simp only [rosa_zyla_order_file_list, hres, if_neg hnotall]
  · intro hnone hrange
    obtain ⟨res, hres⟩ := placeFiles_ok_of_inrange fList
      (List.replicate fList.length [])
      (fun f hf i hi => by
        rw [List.length_replicate]
        exact hrange f hf i hi)
    obtain ⟨hlen, hcount⟩ := placeFiles_count fList _ res hres
    rw [List.length_replicate] at hlen
    have hinit : ((List.replicate fList.length ([] : List Char)).filter
        (fun s => !s.isEmpty)).length = 0 := by
      rw [List.length_eq_zero, List.filter_eq_nil_iff]
      intro a ha
      rw [List.eq_of_mem_replicate ha]
      decide
    have hlt : (fList.filter (fun f => (decodeIndex f).isSome)).length <
        fList.length := by
      rw [List.length_filter_lt_length_iff_exists]
      rcases hnone with ⟨f, hf, hEq⟩
      exact ⟨f, hf, by simp [hEq]⟩
    have hnotall : ¬((res.all fun s => !s.isEmpty) = true) := by
      intro hall
      have hfull : res.filter (fun s => !s.isEmpty) = res :=
        List.filter_eq_self.mpr (List.all_eq_true.mp hall)
      rw [hinit] at hcount
      rw [hfull, hlen] at hcount
      omega
    simp only [rosa_zyla_order_file_list, hres, if_neg hnotall]

/-- Witness for claim C4 at concrete inputs: the shuffled list
`["1b", "0a"]` decodes (reversed leading digits) to indices 1 and 0 and
is restored to exact index order, and the list `["x"]`, whose only name
has no leading digit, fails ordering with the gap check. -/
theorem rosa_zyla_order_files_spec_witness :
    (∃ ordered, rosa_zyla_order_file_list [['1', 'b'], ['0', 'a']] = Except.ok ordered
      ∧ ordered.length = ([['1', 'b'], ['0', 'a']] : List (List Char)).length
      ∧ (∀ f ∈ ([['1', 'b'], ['0', 'a']] : List (List Char)), ∀ i : ℕ,
          decodeIndex f = some i → ordered.getD i [] = f)
      ∧ (∀ i : ℕ, i < ([['1', 'b'], ['0', 'a']] : List (List Char)).length →
          decodeIndex (ordered.getD i []) = some i))
    ∧ rosa_zyla_order_file_list [['x']] = Except.error OrderErr.gapError :=
  ⟨(rosa_zyla_order_files_spec [['1', 'b'], ['0', 'a']]).1 (by decide),
    (rosa_zyla_order_files_spec [['x']]).2.2 (by decide) (by decide)⟩

/-! ### Claim C1: geometry auto-detection on synthetic Zyla buffers -/

/-- Helper: every entry of a zero mask is 0 or 1. -/
theorem zeroMask_le_one (l : List ℕ) : ∀ x ∈ zeroMask l, x ≤ 1 := by
  intro x hx
  rcases List.mem_map.mp hx with ⟨y, _, hEq⟩
  subst hEq
  by_cases hy : y = 0
  · rw [if_pos hy]
  · rw [if_neg hy]
    omega

/-- Helper: `absdiff` on a two-or-more-element list peels one difference. -/
theorem absdiff_cons_cons (x y : ℕ) (t : List ℕ) :
    absdiff (x :: y :: t) = ((y : ℤ) - (x : ℤ)).natAbs :: absdiff (y :: t) := rfl

/-- Helper: the where-equals-one scan of the padded absolute differences
is the accumulator-style boundary scan `bnds`. -/
theorem whereEqOne_absdiff_eq_bnds :
    ∀ (bs : List ℕ) (prev i : ℕ), prev ≤ 1 → (∀ x ∈ bs, x ≤ 1) →
      whereEqOne (absdiff (prev :: (bs ++ [0]))) i = bnds prev bs i := by
  intro bs
  induction bs with
  | nil =>
      intro prev i hprev _
      show whereEqOne (absdiff [prev, 0]) i = bnds prev [] i
      have h1 : absdiff [prev, 0] = [((0 : ℤ) - (prev : ℤ)).natAbs] := rfl
      have h2 : ((0 : ℤ) - (prev : ℤ)).natAbs = prev := by omega
      rw [h1, h2]
      show (if prev = 1 then i :: whereEqOne [] (i + 1) else whereEqOne [] (i + 1)) =
        bnds prev [] i
      by_cases hp : prev = 1
      · rw [if_pos hp]
        show _ = (if prev = 1 then [i] else [])
        rw [if_pos hp]
        rfl
      · rw [if_neg hp]
        show _ = (if prev = 1 then [i] else [])
        rw [if_neg hp]
        rfl
  | cons x t ih =>
      intro prev i hprev hle
      have hx : x ≤ 1 := hle x (List.mem_cons_self x t)
      have ht : ∀ y ∈ t, y ≤ 1 := fun y hy => hle y (List.mem_cons_of_mem x hy)
      rw [List.cons_append, absdiff_cons_cons]
      show (if ((x : ℤ) - (prev : ℤ)).natAbs = 1 then
          i :: whereEqOne (absdiff (x :: (t ++ [0]))) (i + 1)
        else whereEqOne (absdiff (x :: (t ++ [0]))) (i + 1)) = bnds prev (x :: t) i
      rw [ih x (i + 1) hx ht]
      have hcond : (((x : ℤ) - (prev : ℤ)).natAbs = 1) ↔ x ≠ prev := by omega
      show _ = (if x ≠ prev then i :: bnds x t (i + 1) else bnds x t (i + 1))
      by_cases hne : x ≠ prev
      · rw [if_pos (hcond.mpr hne), if_pos hne]
      · rw [if_neg (fun hh => hne (hcond.mp hh)), if_neg hne]

/-- Helper: the boundary scan skips a run of copies of the current state. -/
theorem bnds_replicate : ∀ (n : ℕ) (rest : List ℕ) (prev i : ℕ),
    bnds prev (List.replicate n prev ++ rest) i = bnds prev rest (i + n) := by
  intro n
  induction n with
  | zero => intro rest prev i; simp
  | succ n ih =>
      intro rest prev i
      rw [List.replicate_succ, List.cons_append]
      show (if prev ≠ prev then _ else bnds prev (List.replicate n prev ++ rest) (i + 1)) = _
      rw [if_neg (fun h => h rfl), ih rest prev (i + 1)]
      have : i + 1 + n = i + (n + 1) := by omega
      rw [this]

/-- Helper: scanning one data-row mask from state 1 records the row's
data start and overscan start, ending in state 1 one full row later. -/
theorem bnds_blockA (c C : ℕ) (hc : 1 ≤ c) (hcC : c < C) :
    ∀ (rest : List ℕ) (i : ℕ),
      bnds 1 (blockA c C ++ rest) i = i :: (i + c) :: bnds 1 rest (i + C) := by
  intro rest i
  obtain ⟨c', rfl⟩ : ∃ c', c = c' + 1 := ⟨c - 1, by omega⟩
  obtain ⟨d, hd⟩ : ∃ d, C - (c' + 1) = d + 1 := ⟨C - c' - 2, by omega⟩
  unfold blockA
  rw [hd, List.replicate_succ, List.append_assoc, List.cons_append]
  show (if (0 : ℕ) ≠ 1 then
      i :: bnds 0 (List.replicate c' 0 ++ (List.replicate (d + 1) 1 ++ rest)) (i + 1)
    else _) = _
  rw [if_pos (by omega), bnds_replicate c' (List.replicate (d + 1) 1 ++ rest) 0 (i + 1)]
  rw [List.replicate_succ, List.cons_append]
  show i :: (if (1 : ℕ) ≠ 0 then
      (i + 1 + c') :: bnds 1 (List.replicate d 1 ++ rest) (i + 1 + c' + 1)
    else _) = _
  rw [if_pos (by omega), bnds_replicate d rest 1 (i + 1 + c' + 1)]
  have h1 : i + 1 + c' = i + (c' + 1) := by omega
  rw [h1]
  have h2 : i + (c' + 1) + 1 + d = i + C := by omega
  rw [h2]

/-- Helper: scanning `k` data-row masks followed by an all-ones run from
state 1 yields the boundary pairs plus the single closing boundary. -/
theorem bnds_maskRows (c C : ℕ) (hc : 1 ≤ c) (hcC : c < C) :
    ∀ (k i M : ℕ),
      bnds 1 (maskRows c C k ++ List.replicate M 1) i =
        pairsB c C k i ++ [i + k * C + M] := by
  intro k
  induction k with
  | zero =>
      intro i M
      show bnds 1 (List.replicate M 1) i = pairsB c C 0 i ++ [i + 0 * C + M]
      have h1 : (List.replicate M 1 : List ℕ) = List.replicate M 1 ++ [] := by simp
      rw [h1, bnds_replicate M [] 1 i]
      show (if (1 : ℕ) = 1 then [i + M] else []) = pairsB c C 0 i ++ [i + 0 * C + M]
      rw [if_pos rfl]
      show [i + M] = [] ++ [i + 0 * C + M]
      rw [List.nil_append]
      have : i + M = i + 0 * C + M := by omega
      rw [this]
  | succ k ih =>
      intro i M
      show bnds 1 ((blockA c C ++ maskRows c C k) ++ List.replicate M 1) i = _
      rw [List.append_assoc, bnds_blockA c C hc hcC, ih (i + C) M]
      show i :: (i + c) :: (pairsB c C k (i + C) ++ [i + C + k * C + M]) =
        (i :: (i + c) :: pairsB c C k (i + C)) ++ [i + (k + 1) * C + M]
      rw [List.cons_append, List.cons_append]
      have : i + C + k * C + M = i + (k + 1) * C + M := by
        have h : C + k * C = (k + 1) * C := by ring
        omega
      rw [this]

/-- Helper: the full boundary scan of the synthetic mask, from the
leading 0 sentinel state. -/
theorem bnds_top (c C : ℕ) (hc : 1 ≤ c) (hcC : c < C) :
    ∀ (r M : ℕ), 1 ≤ r →
      bnds 0 (maskRows c C r ++ List.replicate M 1) 0 =
        c :: (pairsB c C (r - 1) C ++ [C + (r - 1) * C + M]) := by
  intro r M hr
  obtain ⟨r', rfl⟩ : ∃ r', r = r' + 1 := ⟨r - 1, by omega⟩
  obtain ⟨d, hd⟩ : ∃ d, C - c = d + 1 := ⟨C - c - 1, by omega⟩
  show bnds 0 ((blockA c C ++ maskRows c C r') ++ List.replicate M 1) 0 = _
  rw [List.append_assoc]
  unfold blockA
  rw [hd, List.append_assoc, bnds_replicate c _ 0 0, List.replicate_succ, List.cons_append]
  show (if (1 : ℕ) ≠ 0 then
      (0 + c) :: bnds 1 (List.replicate d 1 ++ (maskRows c C r' ++ List.replicate M 1)) (0 + c + 1)
    else _) = _
  rw [if_pos (by omega), bnds_replicate d _ 1 (0 + c + 1),
    bnds_maskRows c C hc hcC r' (0 + c + 1 + d) M]
  have h1 : 0 + c = c := by omega
  rw [h1]
  have h2 : c + 1 + d = C := by omega
  rw [h2]
  have h3 : r' + 1 - 1 = r' := by omega
  rw [h3]

/-- Helper: flattening `k` copies of a data-row mask gives `maskRows`. -/
theorem flatten_replicate_blockA (c C : ℕ) : ∀ k : ℕ,
    (List.replicate k (blockA c C)).flatten = maskRows c C k := by
  intro k
  induction k with
  | zero => rfl
  | succ k ih =>
      rw [List.replicate_succ, List.flatten_cons, ih]
      rfl

/-- Helper: flattening `m` copies of an all-ones row of width `C`. -/
theorem flatten_replicate_ones (C : ℕ) : ∀ m : ℕ,
    (List.replicate m (List.replicate C (1 : ℕ))).flatten = List.replicate (m * C) 1 := by
  intro m
  induction m with
  | zero => simp
  | succ m ih =>
      rw [List.replicate_succ, List.flatten_cons, ih]
      have : (m + 1) * C = C + m * C := by ring
      rw [this, List.replicate_add]

/-- Helper: the zero mask of the synthetic buffer is `r` data-row masks
followed by `(R - r) * C` ones. -/
theorem zeroMask_synth (R C r c v : ℕ) (hv : v ≠ 0) :
    zeroMask (synthZylaBuffer R C r c v) =
      maskRows c C r ++ List.replicate ((R - r) * C) 1 := by
  unfold synthZylaBuffer zeroMask
  rw [List.map_flatten, List.map_append, List.map_replicate, List.map_replicate,
    List.map_append, List.map_replicate, List.map_replicate, List.map_replicate]
  rw [if_neg hv, if_pos rfl, List.flatten_append, flatten_replicate_ones]
  have hblock : (List.replicate c (0 : ℕ) ++ List.replicate (C - c) 1) = blockA c C := rfl
  rw [hblock, flatten_replicate_blockA]

/-- Helper: each data-row mask has length `C`. -/
theorem length_maskRows (c C : ℕ) (hcC : c ≤ C) : ∀ k : ℕ,
    (maskRows c C k).length = k * C := by
  intro k
  induction k with
  | zero => simp [maskRows]
  | succ k ih =>
      show (blockA c C ++ maskRows c C k).length = _
      rw [List.length_append, ih]
      unfold blockA
      rw [List.length_append, List.length_replicate, List.length_replicate]
      have : c + (C - c) = C := by omega
      rw [this]
      ring

/-- Helper: the synthetic buffer holds exactly `R * C` samples. -/
theorem length_synth (R C r c v : ℕ) (hv : v ≠ 0) (hrR : r ≤ R) (hcC : c ≤ C) :
    (synthZylaBuffer R C r c v).length = R * C := by
  have h1 : (synthZylaBuffer R C r c v).length = (zeroMask (synthZylaBuffer R C r c v)).length :=
    (List.length_map _ _).symm
  rw [h1, zeroMask_synth R C r c v hv, List.length_append, List.length_replicate,
    length_maskRows c C hcC r]
  obtain ⟨e, rfl⟩ : ∃ e, R = r + e := ⟨R - r, by omega⟩
  have h2 : r + e - r = e := by omega
  rw [h2]
  ring

/-- Helper: closed form of the zero-run boundaries of the synthetic
buffer: the first overscan column, then a start/end boundary pair per
data row, closing at the total sample count. -/
theorem detect_overscan_synth (R C r c v : ℕ) (hv : v ≠ 0) (hc : 1 ≤ c)
    (hcC : c < C) (hr : 1 ≤ r) (hrR : r ≤ R) :
    rosa_zyla_detect_overscan (synthZylaBuffer R C r c v) =
      c :: (pairsB c C (r - 1) C ++ [R * C]) := by
  unfold rosa_zyla_detect_overscan iszero
  rw [List.cons_append,
    whereEqOne_absdiff_eq_bnds (zeroMask (synthZylaBuffer R C r c v)) 0 0 (by omega)
    (zeroMask_le_one _)]
  rw [zeroMask_synth R C r c v hv, bnds_top c C hc hcC r ((R - r) * C) hr]
  have harith : C + (r - 1) * C + (R - r) * C = R * C := by
    obtain ⟨r', rfl⟩ : ∃ r', r = r' + 1 := ⟨r - 1, by omega⟩
    obtain ⟨e, rfl⟩ : ∃ e, R = (r' + 1) + e := ⟨R - r' - 1, by omega⟩
    have h1 : r' + 1 - 1 = r' := by omega
    have h2 : r' + 1 + e - (r' + 1) = e := by omega
    rw [h1, h2]
    ring
  rw [harith]

/-- Helper: the absolute boundary-to-boundary deltas of the closed-form
boundary list alternate between `C - c` and `c`, with one closing delta. -/
theorem absdiff_pairsB (c C : ℕ) (hcC : c ≤ C) : ∀ (k j E : ℕ),
    j + k * C + c ≤ E →
    absdiff ((j + c) :: (pairsB c C k (j + C) ++ [E])) =
      rep2 c C k ++ [E - (j + k * C + c)] := by
  intro k
  induction k with
  | zero =>
      intro j E hE
      show absdiff [j + c, E] = [E - (j + 0 * C + c)]
      rw [absdiff_cons_cons]
      have h1 : ((E : ℤ) - ((j + c : ℕ) : ℤ)).natAbs = E - (j + 0 * C + c) := by
        have h0 : j + 0 * C + c = j + c := by omega
        rw [h0]
        omega
      rw [h1]
      rfl
  | succ k ih =>
      intro j E hE
      have hCc : C + k * C = (k + 1) * C := by ring
      show absdiff ((j + c) :: (((j + C) :: (j + C + c) :: pairsB c C k (j + C + C)) ++ [E])) = _
      rw [List.cons_append, List.cons_append, absdiff_cons_cons, absdiff_cons_cons]
      have hIH := ih (j + C) E (by omega)
      show _ :: _ :: absdiff ((j + C + c) :: (pairsB c C k (j + C + C) ++ [E])) = _
      rw [hIH]
      have h1 : (((j + C : ℕ) : ℤ) - ((j + c : ℕ) : ℤ)).natAbs = C - c := by omega
      have h2 : (((j + C + c : ℕ) : ℤ) - ((j + C : ℕ) : ℤ)).natAbs = c := by omega
      rw [h1, h2]
      have h3 : E - (j + C + k * C + c) = E - (j + (k + 1) * C + c) := by omega
      rw [h3]
      rfl

/-- Helper: the first delta matching neither of the first two observed
deltas sits right after the `k` alternating pairs, at position `2 * k`. -/
theorem firstMismatch_rep2 (c C F : ℕ) (hcC : c ≤ C)
    (hF1 : (F : ℤ) ≠ (C : ℤ) - (c : ℤ)) (hF2 : (F : ℤ) ≠ (c : ℤ)) :
    ∀ (k i : ℕ),
      firstMismatch ((C : ℤ) - (c : ℤ)) (c : ℤ) (rep2 c C k ++ [F]) i =
        some (i + 2 * k) := by
  intro k
  induction k with
  | zero =>
      intro i
      show firstMismatch ((C : ℤ) - (c : ℤ)) (c : ℤ) [F] i = some (i + 2 * 0)
      show (if (F : ℤ) ≠ (C : ℤ) - (c : ℤ) ∧ (F : ℤ) ≠ (c : ℤ) then some i
        else firstMismatch _ _ [] (i + 1)) = some (i + 2 * 0)
      rw [if_pos ⟨hF1, hF2⟩]
      have : i = i + 2 * 0 := by omega
      rw [← this]
  | succ k ih =>
      intro i
      show firstMismatch ((C : ℤ) - (c : ℤ)) (c : ℤ)
        ((C - c) :: c :: (rep2 c C k ++ [F])) i = some (i + 2 * (k + 1))
      have hd1 : ¬(((C - c : ℕ) : ℤ) ≠ (C : ℤ) - (c : ℤ) ∧ ((C - c : ℕ) : ℤ) ≠ (c : ℤ)) := by
        intro hcontra
        exact hcontra.1 (by omega)
      have hd2 : ¬(((c : ℕ) : ℤ) ≠ (C : ℤ) - (c : ℤ) ∧ ((c : ℕ) : ℤ) ≠ (c : ℤ)) := by
        intro hcontra
        exact hcontra.2 rfl
      show (if ((C - c : ℕ) : ℤ) ≠ (C : ℤ) - (c : ℤ) ∧ ((C - c : ℕ) : ℤ) ≠ (c : ℤ) then some i
        else firstMismatch _ _ (c :: (rep2 c C k ++ [F])) (i + 1)) = _
      rw [if_neg hd1]
      show (if ((c : ℕ) : ℤ) ≠ (C : ℤ) - (c : ℤ) ∧ ((c : ℕ) : ℤ) ≠ (c : ℤ) then some (i + 1)
        else firstMismatch _ _ (rep2 c C k ++ [F]) (i + 1 + 1)) = _
      rw [if_neg hd2, ih (i + 1 + 1)]
      have : i + 1 + 1 + 2 * k = i + 2 * (k + 1) := by omega
      rw [this]

/-- Helper: evaluation of the detector once the boundary list has at
least three entries and the mismatch scan hits. -/
theorem rosa_zyla_detect_zyla_dims_eval (img : List ℕ) (o0 o1 o2 : ℕ)
    (rest : List ℕ) (idx : ℕ)
    (hover : rosa_zyla_detect_overscan img = o0 :: o1 :: o2 :: rest)
    (hfm : firstMismatch ((o1 : ℤ) - (o0 : ℤ)) ((o2 : ℤ) - (o1 : ℤ))
      (absdiff (o0 :: o1 :: o2 :: rest)) 0 = some idx) :
    rosa_zyla_detect_zyla_dims img =
      some (((img.length / o1) % 2 ^ 16, o1), ((idx / 2 + 1) % 2 ^ 16, o0)) := by
  unfold rosa_zyla_detect_zyla_dims
  rw [hover]
  simp only [hfm]

/-- Claim C1: on every synthetic raw Zyla buffer built from known shapes
`dataShape = (R, C)` and `imageShape = (r, c)` with contiguous
zero-valued overscan runs (nonzero data value `v`, at least two data
rows, at least one all-zero bottom row, at least one data column and one
overscan column, `R` within `uint16` range), `rosa_zyla_detect_zyla_dims`
recovers exactly those shapes.  In particular: the usable column count
`imageShape[1]` is the first boundary index, the row stride
`dataShape[1]` is the zero-run boundary at index 1 (the first zero run's
end), `dataShape[0]` is the total sample count divided by that stride,
and the usable row count is `position / 2 + 1` where `position`
(here `2 * (r - 1)`) is where the first boundary-to-boundary delta
matching neither of the first two observed deltas sits. -/
theorem rosa_zyla_detect_zyla_dims_correct (R C r c v : ℕ) (hv : v ≠ 0)
    (hr2 : 2 ≤ r) (hrR : r < R) (hc1 : 1 ≤ c) (hcC : c < C) (hR : R < 2 ^ 16) :
    rosa_zyla_detect_zyla_dims (synthZylaBuffer R C r c v) = some ((R, C), (r, c))
    ∧ (rosa_zyla_detect_overscan (synthZylaBuffer R C r c v)).get? 0 = some c
    ∧ (rosa_zyla_detect_overscan (synthZylaBuffer R C r c v)).get? 1 = some C
    ∧ R = (synthZylaBuffer R C r c v).length / C
    ∧ firstMismatch ((C : ℤ) - (c : ℤ)) (c : ℤ)
        (absdiff (rosa_zyla_detect_overscan (synthZylaBuffer R C r c v))) 0 =
        some (2 * (r - 1))
    ∧ r = 2 * (r - 1) / 2 + 1 := by
  have hC0 : 0 < C := by omega
  have hover := detect_overscan_synth R C r c v hv hc1 hcC (by omega) (by omega)
  have hlen := length_synth R C r c v hv (by omega) (by omega)
  have hsplit : pairsB c C (r - 1) C = C :: (C + c) :: pairsB c C (r - 2) (C + C) := by
    have h : r - 1 = (r - 2) + 1 := by omega
    rw [h]
    rfl
  have hlist : rosa_zyla_detect_overscan (synthZylaBuffer R C r c v) =
      c :: C :: (C + c) :: (pairsB c C (r - 2) (C + C) ++ [R * C]) := by
    rw [hover, hsplit, List.cons_append, List.cons_append]
  have hmul : ((r - 1) + 2) * C ≤ R * C := Nat.mul_le_mul_right C (by omega)
  have hexpand : ((r - 1) + 2) * C = (r - 1) * C + 2 * C := by ring
  have hdelta : absdiff (rosa_zyla_detect_overscan (synthZylaBuffer R C r c v)) =
      rep2 c C (r - 1) ++ [R * C - ((r - 1) * C + c)] := by
    rw [hover]
    have h := absdiff_pairsB c C (by omega) (r - 1) 0 (R * C) (by omega)
    simp only [Nat.zero_add] at h
    exact h
  have hF1 : ((R * C - ((r - 1) * C + c) : ℕ) : ℤ) ≠ (C : ℤ) - (c : ℤ) := by omega
  have hF2 : ((R * C - ((r - 1) * C + c) : ℕ) : ℤ) ≠ (c : ℤ) := by omega
  have hfm_overscan : firstMismatch ((C : ℤ) - (c : ℤ)) (c : ℤ)
      (absdiff (rosa_zyla_detect_overscan (synthZylaBuffer R C r c v))) 0 =
      some (2 * (r - 1)) := by
    rw [hdelta, firstMismatch_rep2 c C (R * C - ((r - 1) * C + c)) (by omega) hF1 hF2 (r - 1) 0]
    have h0 : 0 + 2 * (r - 1) = 2 * (r - 1) := by omega
    rw [h0]
  have hdx2 : ((C + c : ℕ) : ℤ) - (C : ℤ) = (c : ℤ) := by push_cast; ring
  have hfm2 : firstMismatch ((C : ℤ) - (c : ℤ)) (((C + c : ℕ) : ℤ) - (C : ℤ))
      (absdiff (c :: C :: (C + c) :: (pairsB c C (r - 2) (C + C) ++ [R * C]))) 0 =
      some (2 * (r - 1)) := by
    rw [hdx2, ← hlist]
    exact hfm_overscan
  have hmain := rosa_zyla_detect_zyla_dims_eval (synthZylaBuffer R C r c v)
    c C (C + c) (pairsB c C (r - 2) (C + C) ++ [R * C]) (2 * (r - 1)) hlist hfm2
  have hdat : (synthZylaBuffer R C r c v).length / C = R := by
    rw [hlen, Nat.mul_div_cancel R hC0]
  have himg : (2 * (r - 1) / 2 + 1) % 2 ^ 16 = r := by
    rw [Nat.mul_div_cancel_left (r - 1) (by norm_num : 0 < 2)]
    have h1 : r - 1 + 1 = r := by omega
    rw [h1]
    exact Nat.mod_eq_of_lt (by omega)
  refine ⟨?_, ?_, ?_, ?_, hfm_overscan, by omega⟩
  · rw [hmain, hdat, Nat.mod_eq_of_lt hR, himg]
  · rw [hlist]
    rfl
  · rw [hlist]
    rfl
  · rw [hdat]

/-- Witness for claim C1 at a concrete input: the synthetic buffer with
`dataShape (4, 5)`, `imageShape (2, 3)` and data value 7 is recovered
exactly. -/
theorem rosa_zyla_detect_zyla_dims_correct_witness :
    rosa_zyla_detect_zyla_dims (synthZylaBuffer 4 5 2 3 7) = some ((4, 5), (2, 3))
    ∧ (rosa_zyla_detect_overscan (synthZylaBuffer 4 5 2 3 7)).get? 0 = some 3
    ∧ (rosa_zyla_detect_overscan (synthZylaBuffer 4 5 2 3 7)).get? 1 = some 5
    ∧ 4 = (synthZylaBuffer 4 5 2 3 7).length / 5
    ∧ firstMismatch ((5 : ℤ) - (3 : ℤ)) (3 : ℤ)
        (absdiff (rosa_zyla_detect_overscan (synthZylaBuffer 4 5 2 3 7))) 0 =
        some (2 * (2 - 1))
    ∧ 2 = 2 * (2 - 1) / 2 + 1 := by
  have h := rosa_zyla_detect_zyla_dims_correct 4 5 2 3 7 (by decide) (by decide)
    (by decide) (by decide) (by decide) (by decide)
  exact h
